import Mathlib

/-!
Verification development for the DWARF extraction core in
`src/symcache/src/dwarf.rs`.

The Rust source is shallowly embedded: machine integers (`u64`, `u32`,
`u16`, `isize`) become `Nat`/`Int` with explicit `% 2^w` at the spots where
the source performs wrapping arithmetic or lossy casts; fallible Rust code
(`Result<_, SymCacheError>`) becomes `Except String _` carrying the
`ConversionError` message; borrowed byte slices become `String`s.  External
collaborators (gimli's line-program state machine, the range-list reader,
the object's symbol table and file table) are modelled as the data they
produce, which is exactly what the embedded code consumes.
-/

namespace SymbolicDwarf

/-- Modulus of `u64` arithmetic. -/
def U64MOD : Nat := 2 ^ 64

/-- Modulus of `u32` arithmetic (the `as u32` cast truncates to this). -/
def U32MOD : Nat := 2 ^ 32

/-- Wrapping `u64` addition (`u64::wrapping_add`). -/
def wrapping_add (a b : Nat) : Nat := (a + b) % U64MOD

/-- Wrapping `u64` subtraction: the value the Rust expression `a - b` takes on
`u64` operands (release build), for `a b < 2^64`. -/
def wrapping_sub (a b : Nat) : Nat := (a + U64MOD - b % U64MOD) % U64MOD

/-- The value of `d as u16` for `d : isize`. -/
def u16_of_int (d : Int) : Nat := (d % 65536).toNat

/-- A half-open address range, `gimli::Range { begin, end }`.  `end` is a Lean
keyword, so the fields carry a trailing underscore. -/
structure Range where
  begin_ : Nat
  end_ : Nat
  deriving DecidableEq, Repr

/-! ## Line programs (`DwarfLineProgram`)

`DwarfLineProgram::parse` drives gimli's line-number state machine and only
reads four things from each row it yields: `address()`, `end_sequence()`,
`file_index()` and `line()`.  A `ProgramRow` is that projection of one
successfully decoded row; the `while let Ok(Some(..))` loop corresponds to
folding over the list of rows decoded before the first error/end. -/

structure ProgramRow where
  address : Nat
  end_sequence : Bool
  file_index : Nat
  line : Option Nat
  deriving DecidableEq, Repr

/-- `DwarfRow` from the source. -/
structure DwarfRow where
  address : Nat
  file_index : Nat
  line : Option Nat
  deriving DecidableEq, Repr

/-- `DwarfSeq` from the source. -/
structure DwarfSeq where
  low_address : Nat
  high_address : Nat
  rows : List DwarfRow
  deriving DecidableEq, Repr

/-- The loop state of `DwarfLineProgram::parse`: the finished sequences, the
rows of the sequence being accumulated, and `prev_address`. -/
structure LPState where
  sequences : List DwarfSeq
  sequence_rows : List DwarfRow
  prev_address : Nat
  deriving DecidableEq, Repr

/-- One iteration of the `while let Ok(Some((_, &program_row)))` loop of
`DwarfLineProgram::parse`. -/
def lineStep (st : LPState) (r : ProgramRow) : LPState :=
  if r.end_sequence then
    match st.sequence_rows with
    | [] => { st with prev_address := 0 }
    | r0 :: _ =>
      { sequences := st.sequences ++
          [{ low_address := r0.address,
             high_address := if r.address < st.prev_address then st.prev_address + 1
                             else r.address,
             rows := st.sequence_rows }],
        sequence_rows := [],
        prev_address := 0 }
  else if r.address < st.prev_address then
    -- invalid row (addresses may only increase within a sequence): ignored
    st
  else
    match st.sequence_rows.getLast? with
    | some last_row =>
      if last_row.address = r.address then
        -- duplicate address: overwrite the last row's file_index and line
        { st with
          sequence_rows := st.sequence_rows.dropLast ++
            [{ last_row with file_index := r.file_index, line := r.line }],
          prev_address := r.address }
      else
        { st with
          sequence_rows := st.sequence_rows ++ [⟨r.address, r.file_index, r.line⟩],
          prev_address := r.address }
    | none =>
      { st with
        sequence_rows := [⟨r.address, r.file_index, r.line⟩],
        prev_address := r.address }

/-- The code after the loop of `DwarfLineProgram::parse`: a sequence without a
trailing `end_sequence` row is closed with `high_address = prev_address + 1`. -/
def lineFinish (st : LPState) : List DwarfSeq :=
  match st.sequence_rows with
  | [] => st.sequences
  | r0 :: _ =>
    st.sequences ++
      [{ low_address := r0.address, high_address := st.prev_address + 1,
         rows := st.sequence_rows }]

/-- `dmsort::sort_by_key(&mut sequences, |x| x.low_address)`, modelled as a
comparison sort on the key.  No claim here depends on the order of sequences
with equal `low_address`. -/
def sortSeqs (l : List DwarfSeq) : List DwarfSeq :=
  List.insertionSort (fun a b => a.low_address ≤ b.low_address) l

/-- `DwarfLineProgram::parse`, as a function of the decoded program rows. -/
def DwarfLineProgram.parse (rows : List ProgramRow) : List DwarfSeq :=
  sortSeqs (lineFinish (rows.foldl lineStep ⟨[], [], 0⟩))

/-- `slice::binary_search_by_key` on the address key, modelled by its contract:
the returned index is the number of elements with key below the probe.  On the
sorted, duplicate-free row lists that `DwarfLineProgram::parse` builds this is
exactly the index Rust's binary search reports (`Ok idx` when the key is
present, `Err insertion_point` otherwise). -/
def lowerCount (rows : List DwarfRow) (key : Nat) : Nat :=
  rows.countP (fun x => decide (x.address < key))

/-- Whether some row carries exactly the probed address (`Ok` vs `Err`). -/
def hasAddr (rows : List DwarfRow) (key : Nat) : Bool :=
  rows.any (fun x => x.address == key)

/-- `DwarfLineProgram::get_rows`.  Walks the sequences in order; a sequence
with `[low_address, high_address]` disjoint from the closed range is skipped;
within the first candidate sequence the start row is the row at
`range.begin` or the one just below it (`Err(0)`, no such row, moves on to the
next sequence), and the slice ends before the first row at `≥ range.end`. -/
def get_rows (seqs : List DwarfSeq) (rng : Range) : List DwarfRow :=
  match seqs with
  | [] => []
  | seq :: rest =>
    if seq.high_address < rng.begin_ ∨ rng.end_ < seq.low_address then
      get_rows rest rng
    else
      let d := lowerCount seq.rows rng.begin_
      let fromIdx : Option Nat :=
        if hasAddr seq.rows rng.begin_ then some d
        else if d = 0 then none
        else some (d - 1)
      match fromIdx with
      | none => get_rows rest rng
      | some f =>
        let tail := seq.rows.drop f
        tail.take (lowerCount tail rng.end_)

/-! ## Range/location parsing (`Unit::parse_location`)

`parse_location` iterates a DIE's attributes once.  An `AttrVal` is the
projection of one attribute to what that loop reads.  `DW_AT_ranges` carries
the concrete ranges that the gimli range-list reader yields for its offset
(the inner `while let Some(item) = attrs.next()` loop pushes exactly those). -/

inductive AttrVal where
  | ranges (rs : List Range)
  | low_pc (addr : Nat)
  | high_pc_addr (addr : Nat)
  | high_pc_udata (size : Nat)
  | call_line (line : Nat)
  | call_file (file : Nat)
  | other
  deriving DecidableEq, Repr

/-- `FunctionLocation` from the source: `(call_line, call_file, ranges)`. -/
structure FunctionLocation where
  call_line : Option Nat
  call_file : Option Nat
  ranges : List Range
  deriving DecidableEq, Repr

/-- The mutable locals of `parse_location` during its attribute loop. -/
structure LocState where
  buf : List Range
  low_pc : Option Nat
  high_pc : Option Nat
  high_pc_rel : Option Nat
  call_line : Option Nat
  call_file : Option Nat
  deriving DecidableEq, Repr

/-- One iteration of the attribute loop of `parse_location`. -/
def locStep (st : LocState) (a : AttrVal) : LocState :=
  match a with
  | .ranges rs => { st with buf := st.buf ++ rs }
  | .low_pc addr => { st with low_pc := some addr }
  | .high_pc_addr addr => { st with high_pc := some addr }
  | .high_pc_udata size => { st with high_pc_rel := some size }
  | .call_line l => { st with call_line := some l }
  | .call_file f => { st with call_file := some f }
  | .other => st

/-- The attribute loop of `parse_location` (the buffer starts cleared). -/
def collect_location (attrs : List AttrVal) : LocState :=
  attrs.foldl locStep ⟨[], none, none, none, none, none⟩

/-- The `high_pc` actually used: the absolute `DW_AT_high_pc` address if one
was seen, else `low_pc.wrapping_add(high_pc_rel)` if a relative size was. -/
def effective_high_pc (st : LocState) (low_pc : Nat) : Option Nat :=
  match st.high_pc, st.high_pc_rel with
  | some h, _ => some h
  | none, some rel => some (wrapping_add low_pc rel)
  | none, none => none

/-- The resolution logic of `parse_location` after its attribute loop. -/
def resolve_location (st : LocState) : Except String FunctionLocation :=
  if st.buf ≠ [] then .ok ⟨st.call_line, st.call_file, st.buf⟩
  else
    match st.low_pc with
    | none => .ok ⟨st.call_line, st.call_file, []⟩
    | some lp =>
      if lp = 0 then .ok ⟨st.call_line, st.call_file, []⟩
      else
        match effective_high_pc st lp with
        | none => .ok ⟨st.call_line, st.call_file, []⟩
        | some hp =>
          if lp = hp then .ok ⟨st.call_line, st.call_file, []⟩
          else if hp < lp then .error "invalid function with inverted range"
          else .ok ⟨st.call_line, st.call_file, [⟨lp, hp⟩]⟩

/-- `Unit::parse_location`. -/
def parse_location (attrs : List AttrVal) : Except String FunctionLocation :=
  resolve_location (collect_location attrs)

/-! ## Unit headers (`Unit::parse`) -/

inductive DwTag where
  | compile_unit
  | subprogram
  | inlined_subroutine
  | other
  deriving DecidableEq, Repr

/-- The attribute-value shapes `Unit::parse` distinguishes.  `StringVal` is a
value on which `attr.string_value(..)` succeeds (inline or `.debug_str`
indirect). -/
inductive UnitAttrValue where
  | Addr (addr : Nat)
  | DebugLineRef (offset : Nat)
  | Language (lang : Nat)
  | StringVal (s : String)
  | OtherVal
  deriving DecidableEq, Repr

inductive DwAt where
  | low_pc
  | entry_pc
  | comp_dir
  | name
  | language
  | stmt_list
  | otherAt
  deriving DecidableEq, Repr

/-- The top DIE of a unit, as `Unit::parse` sees it. -/
structure UnitDie where
  tag : DwTag
  attrs : List (DwAt × UnitAttrValue)
  deriving DecidableEq, Repr

/-- `entry.attr_value(name)`: the value of the first attribute so named. -/
def UnitDie.attr_value (d : UnitDie) (n : DwAt) : Option UnitAttrValue :=
  (d.attrs.find? (fun p => p.1 == n)).map (fun p => p.2)

/-- `entry.attr(name)?.and_then(|attr| attr.string_value(..))`. -/
def UnitDie.attr_string (d : UnitDie) (n : DwAt) : Option String :=
  match d.attr_value n with
  | some (.StringVal s) => some s
  | _ => none

/-- `Unit` from the source (named apart from Lean's built-in `Unit`). -/
structure DwarfUnit where
  index : Nat
  version : Nat
  base_address : Nat
  comp_dir : Option String
  comp_name : Option String
  language : Option Nat
  line_offset : Nat
  deriving DecidableEq, Repr

/-- `Unit::parse`.  `top` is what `entries.next_dfs()` produced for the top
DIE (`none` when the unit has no DIE at all). -/
def DwarfUnit.parse (top : Option UnitDie) (index version : Nat) :
    Except String (Option DwarfUnit) :=
  match top with
  | none => .ok none
  | some entry =>
    if entry.tag ≠ .compile_unit then .error "missing compilation unit"
    else
      let base_address :=
        match entry.attr_value .low_pc with
        | some (.Addr addr) => addr
        | _ =>
          match entry.attr_value .entry_pc with
          | some (.Addr addr) => addr
          | _ => 0
      let comp_dir := entry.attr_string .comp_dir
      let comp_name := entry.attr_string .name
      let language :=
        match entry.attr_value .language with
        | some (.Language lang) => some lang
        | _ => none
      match entry.attr_value .stmt_list with
      | some (.DebugLineRef offset) =>
        .ok (some ⟨index, version, base_address, comp_dir, comp_name, language, offset⟩)
      | _ => .ok none

/-! ## Name resolution (`Unit::resolve_function_name` / `resolve_reference`)

The DIE store is modelled as a partial map from offsets to DIEs; a
`UnitRef` and a `DebugInfoRef` both address it (for a `DebugInfoRef` the
source first maps the global offset to a `(unit, local offset)` pair through
`find_unit_offset`, which is this same lookup in a different coordinate
system).  Each name-relevant attribute carries the result of
`attr.string_value(..)` (`none` when the string table lookup fails).  The
recursion in the source has no depth bound; the embedding makes it total with
an explicit `fuel` argument, where an outer `none` result means the recursion
was still running after `fuel` nested calls. -/

inductive RefVal where
  | UnitRef (offset : Nat)
  | DebugInfoRef (offset : Nat)
  | OtherRef
  deriving DecidableEq, Repr

inductive NameAttr where
  | linkage_name (s : Option String)
  | name (s : Option String)
  | abstract_origin (r : RefVal)
  | specification (r : RefVal)
  | otherAttr
  deriving DecidableEq, Repr

structure NameDie where
  attrs : List NameAttr
  deriving DecidableEq, Repr

/-- The attribute loop of `resolve_function_name`: the first linkage name
returns immediately (`.inl`); otherwise the last `DW_AT_name` and the last
reference target are remembered. -/
def nameScan : List NameAttr → Option (Option String) → Option RefVal →
    Sum (Option String) (Option (Option String) × Option RefVal)
  | [], fallback_name, reference_target => .inr (fallback_name, reference_target)
  | a :: rest, fallback_name, reference_target =>
    match a with
    | .linkage_name s => .inl s
    | .name s => nameScan rest (some s) reference_target
    | .abstract_origin r => nameScan rest fallback_name (some r)
    | .specification r => nameScan rest fallback_name (some r)
    | .otherAttr => nameScan rest fallback_name reference_target

/-- `Unit::resolve_reference`: which DIE (if any) a reference value leads to.
Attribute values that are neither unit-local nor global references resolve to
nothing (`_ => return Ok(None)`), as does a missing target DIE. -/
def resolve_reference (dies : Nat → Option NameDie) (r : RefVal) : Option NameDie :=
  match r with
  | .UnitRef offset => dies offset
  | .DebugInfoRef offset => dies offset
  | .OtherRef => none

/-- `Unit::resolve_function_name`, with explicit fuel standing for the call
stack.  `none` means the recursion has not finished within `fuel` nested
calls; `some r` is the value `Ok(r)` the source returns. -/
def resolve_function_name (dies : Nat → Option NameDie) :
    Nat → NameDie → Option (Option String)
  | 0, _ => none
  | fuel + 1, entry =>
    match nameScan entry.attrs none none with
    | .inl s => some s
    | .inr (some fallback, _) => some fallback
    | .inr (none, some target) =>
      match resolve_reference dies target with
      | none => some none
      | some ref_entry =>
        match resolve_function_name dies fuel ref_entry with
        | none => none
        | some (some nm) => some (some nm)
        | some none => some none
    | .inr (none, none) => some none

/-! ## Output data model (`Line`, `Function`)

`Function.inlines` is a tree; Lean 4.14 does not compile structural
recursion through a nested `List Function`, so the inline children are kept
in the isomorphic custom list type `FunctionList` and the tree walks below
are mutual structural recursions. -/

structure Line where
  addr : Nat
  original_file_id : Nat
  filename : String
  base_dir : String
  line : Nat
  deriving DecidableEq, Repr

mutual
inductive Function where
  | mk (depth : Nat) (addr : Nat) (len : Nat) (name : String)
       (inlines : FunctionList) (lines : List Line) (comp_dir : String) (lang : Nat)
  deriving DecidableEq
inductive FunctionList where
  | nil
  | cons (f : Function) (fs : FunctionList)
  deriving DecidableEq
end

def Function.depth : Function → Nat
  | .mk d _ _ _ _ _ _ _ => d

def Function.addr : Function → Nat
  | .mk _ a _ _ _ _ _ _ => a

def Function.len : Function → Nat
  | .mk _ _ l _ _ _ _ _ => l

def Function.name : Function → String
  | .mk _ _ _ n _ _ _ _ => n

def Function.inlines : Function → FunctionList
  | .mk _ _ _ _ i _ _ _ => i

def Function.lines : Function → List Line
  | .mk _ _ _ _ _ l _ _ => l

def Function.comp_dir : Function → String
  | .mk _ _ _ _ _ _ c _ => c

def Function.lang : Function → Nat
  | .mk _ _ _ _ _ _ _ g => g

def Function.setLines (f : Function) (ls : List Line) : Function :=
  match f with
  | .mk d a l n i _ c g => .mk d a l n i ls c g

def Function.setInlines (f : Function) (i : FunctionList) : Function :=
  match f with
  | .mk d a l n _ ls c g => .mk d a l n i ls c g

/-- `Vec::push` on the inline children. -/
def FunctionList.push : FunctionList → Function → FunctionList
  | .nil, g => .cons g .nil
  | .cons f fs, g => .cons f (fs.push g)

def FunctionList.toList : FunctionList → List Function
  | .nil => []
  | .cons f fs => f :: fs.toList

/-- `Function::append_line_if_changed`. -/
def Function.append_line_if_changed (f : Function) (l : Line) : Function :=
  match f.lines.getLast? with
  | some last_line =>
    if last_line.original_file_id = l.original_file_id ∧ last_line.line = l.line then f
    else f.setLines (f.lines ++ [l])
  | none => f.setLines (f.lines ++ [l])

/-! ## The function walker (`Unit::get_functions`) -/

/-- A linker symbol as `symbols.lookup` yields it. -/
structure Symbol where
  addr : Nat
  len : Option Nat
  name : String

/-- The per-unit context `get_functions` reads: the image base, the unit's
`comp_dir`, the already-mapped language, the line-program file table
(`get_filename`'s backing store, yielding `(base_dir, filename)`), and the
optional symbol table. -/
structure WalkCtx where
  vmaddr : Nat
  comp_dir : String
  lang : Nat
  file_table : Nat → Option (String × String)
  symbols : Option (Nat → Option Symbol)

/-- `DwarfLineProgram::get_filename`: resolve a file index against the
line-program header's file table. -/
def get_filename (file_table : Nat → Option (String × String)) (idx : Nat) :
    Except String (String × String) :=
  match file_table idx with
  | none => .error "invalid file reference"
  | some p => .ok p

/-- Construction of one output `Line` from a line-program row (loop body of
the `for row in rows` loop). -/
def make_line (vmaddr : Nat) (file_table : Nat → Option (String × String))
    (row : DwarfRow) : Except String Line :=
  match get_filename file_table row.file_index with
  | .error e => .error e
  | .ok (base_dir, filename) =>
    .ok { addr := wrapping_sub row.address vmaddr,
          original_file_id := row.file_index,
          filename := filename,
          base_dir := base_dir,
          line := min (row.line.getD 0) 0xffff }

/-- Construction of the `Function` record in `get_functions` (before its
lines are attached): `addr = ranges[0].begin - vmaddr` and
`len = (ranges.last.end - ranges[0].begin) as u32`, with `depth as u16`. -/
def make_function (vmaddr : Nat) (comp_dir : String) (lang : Nat) (depth : Int)
    (name : Option String) (r0 rlast : Range) : Function :=
  .mk (u16_of_int depth) (wrapping_sub r0.begin_ vmaddr)
      (wrapping_sub rlast.end_ r0.begin_ % U32MOD)
      (name.getD "") .nil [] comp_dir lang

/-- The `for range in ranges { for row in line_program.get_rows(range) .. }`
loops: fetch the rows of each range and append them through
`append_line_if_changed`. -/
def add_lines (vmaddr : Nat) (file_table : Nat → Option (String × String))
    (seqs : List DwarfSeq) (ranges : List Range) (f : Function) :
    Except String Function :=
  ranges.foldlM (fun f r =>
    (get_rows seqs r).foldlM (fun f row =>
      match make_line vmaddr file_table row with
      | .error e => .error e
      | .ok l => .ok (f.append_line_if_changed l)) f) f

/-- The call-site patch on the parent's `lines` (step 11 of the walker):
binary-search the parent's lines for the inline function's start address;
on a hit rewrite that line's location in place, on a miss insert a new line
at the insertion point.  The binary search is modelled by its contract the
same way as in `get_rows`. -/
def patch_call_info (lines : List Line) (faddr cl cf : Nat)
    (base_dir filename : String) : List Line :=
  let idx := lines.countP (fun l => decide (l.addr < faddr))
  if lines.any (fun l => l.addr == faddr) then
    match lines[idx]? with
    | some old =>
      lines.set idx
        { old with line := min cl 0xffff, base_dir := base_dir,
                   filename := filename, original_file_id := cf }
    | none => lines
  else
    lines.take idx ++
      { addr := faddr, original_file_id := cf, filename := filename,
        base_dir := base_dir, line := min cl 0xffff } :: lines.drop idx

/-- Attach `func` (and apply the call-site patch, when present) at the node
the descent has stopped at. -/
def attach_here (node : Function) (func : Function)
    (patch : Option (Nat × Nat × String × String)) : Function :=
  match patch with
  | none => node.setInlines (node.inlines.push func)
  | some (cl, cf, base_dir, filename) =>
    let node := node.setLines (patch_call_info node.lines func.addr cl cf base_dir filename)
    node.setInlines (node.inlines.push func)

mutual
/-- The parent-search loop of the walker: starting from the last top-level
function, descend into the last inline child while that child's depth (read
back as `isize`) is below the new function's depth, then patch and attach. -/
def attach_inline (node : Function) (depth : Int) (func : Function)
    (patch : Option (Nat × Nat × String × String)) : Function :=
  match node with
  | .mk d a l n inl ls c g =>
    match attach_descend inl depth func patch with
    | some inl2 => .mk d a l n inl2 ls c g
    | none => attach_here (.mk d a l n inl ls c g) func patch

/-- Descent into the last element of an inline list.  `none` means the list
is empty or its last element's depth is not below `depth`, so the attach
happens at the current node. -/
def attach_descend (fs : FunctionList) (depth : Int) (func : Function)
    (patch : Option (Nat × Nat × String × String)) : Option FunctionList :=
  match fs with
  | .nil => none
  | .cons f .nil =>
    if (f.depth : Int) < depth then
      some (.cons (attach_inline f depth func patch) .nil)
    else none
  | .cons f (.cons g gs) =>
    match attach_descend (.cons g gs) depth func patch with
    | some fs2 => some (.cons f fs2)
    | none => none
end

/-- A DIE as the walker's DFS yields it: the cursor movement, the tag, the
attributes `parse_location` reads, and — abstracting component G — the name
`resolve_function_name` would produce for this DIE. -/
structure DieEntry where
  movement : Int
  tag : DwTag
  attrs : List AttrVal
  dwarf_name : Option String

/-- The `if_chain!` computing `func_name`: prefer a symbol-table symbol
covering `ranges[0].begin` whose extent stays inside the DIE's ranges; fall
back to the DWARF name. -/
def function_name (ctx : WalkCtx) (inline : Bool) (e : DieEntry)
    (r0 rlast : Range) : Option String :=
  if inline = false then
    match ctx.symbols with
    | some lookup =>
      match lookup r0.begin_ with
      | some symbol =>
        match symbol.len with
        | some len =>
          if wrapping_add symbol.addr len ≤ rlast.end_ then some symbol.name
          else e.dwarf_name
        | none => e.dwarf_name
      | none => e.dwarf_name
    | none => e.dwarf_name
  else e.dwarf_name

/-- The walker's loop state: the DFS cursor depth, the skip threshold, and
the shared output vector. -/
structure WalkState where
  depth : Int
  skipped_depth : Option Int
  funcs : List Function

/-- The body of the walker once an entry is actually visited (the skip check
has passed and `skipped_depth` has been reset; `st.depth` is already the
entry's depth). -/
def walkVisit (ctx : WalkCtx) (seqs : List DwarfSeq) (st : WalkState)
    (e : DieEntry) : Except String WalkState :=
  if e.tag ≠ .subprogram ∧ e.tag ≠ .inlined_subroutine then .ok st
  else
    let inline : Bool := e.tag == .inlined_subroutine
    match parse_location e.attrs with
    | .error msg => .error msg
    | .ok loc =>
      match loc.ranges with
      | [] => .ok { st with skipped_depth := some st.depth }
      | r0 :: rrest =>
        let rlast := List.getLastD rrest r0
        let func := make_function ctx.vmaddr ctx.comp_dir ctx.lang st.depth
          (function_name ctx inline e r0 rlast) r0 rlast
        match add_lines ctx.vmaddr ctx.file_table seqs (r0 :: rrest) func with
        | .error msg => .error msg
        | .ok func =>
          if inline = false then .ok { st with funcs := st.funcs ++ [func] }
          else
            match st.funcs.getLast? with
            | none => .error "could not find inline parent function"
            | some parent =>
              match loc.call_line, loc.call_file with
              | some cl, some cf =>
                match get_filename ctx.file_table cf with
                | .error msg => .error msg
                | .ok (base_dir, filename) =>
                  .ok { st with funcs := st.funcs.dropLast ++
                        [attach_inline parent st.depth func
                          (some (cl, cf, base_dir, filename))] }
              | _, _ =>
                .ok { st with funcs := st.funcs.dropLast ++
                      [attach_inline parent st.depth func none] }

/-- One iteration of `while let Some((movement, entry)) = entries.next_dfs()`:
update the depth, handle the skip state, then visit. -/
def walkStep (ctx : WalkCtx) (seqs : List DwarfSeq) (st : WalkState)
    (e : DieEntry) : Except String WalkState :=
  let depth := st.depth + e.movement
  match st.skipped_depth with
  | some skipped =>
    if skipped < depth then .ok { st with depth := depth }
    else walkVisit ctx seqs { depth := depth, skipped_depth := none, funcs := st.funcs } e
  | none => walkVisit ctx seqs { depth := depth, skipped_depth := none, funcs := st.funcs } e

/-- `dmsort::sort_by_key(funcs, |x| x.addr)`, modelled as a comparison sort
on the key.  No claim here depends on the order of functions with equal
`addr`. -/
def sortFuncs (l : List Function) : List Function :=
  List.insertionSort (fun a b => a.addr ≤ b.addr) l

/-- `Unit::get_functions`: parse the unit's line program, fold the walker
over the DFS entries starting from the shared output vector `funcs`, and
sort the result by `addr`. -/
def get_functions (ctx : WalkCtx) (program_rows : List ProgramRow)
    (entries : List DieEntry) (funcs : List Function) :
    Except String (List Function) :=
  let seqs := DwarfLineProgram.parse program_rows
  match entries.foldlM (walkStep ctx seqs) ⟨0, none, funcs⟩ with
  | .error msg => .error msg
  | .ok st => .ok (sortFuncs st.funcs)

/-- The function list of a successful result (empty on error). -/
def funcsOf (r : Except String (List Function)) : List Function :=
  match r with
  | .ok fs => fs
  | .error _ => []

/-- The error message of a failed result. -/
def errorOf {α : Type} (r : Except String α) : Option String :=
  match r with
  | .ok _ => none
  | .error e => some e

/-! ## Predicates and scenario data used by the claims -/

/-- The dedup invariant on a line list: no two consecutive entries share both
`original_file_id` and `line`. -/
def LinesDedup (ls : List Line) : Prop :=
  List.Chain' (fun a b => ¬(a.original_file_id = b.original_file_id ∧ a.line = b.line)) ls

/-- The lines of the first output function (empty when there is none). -/
def firstLines (r : Except String (List Function)) : List Line :=
  match funcsOf r with
  | f :: _ => f.lines
  | [] => []

mutual
/-- Every line in the function tree (the function's own lines and,
recursively, its inline children's) has `line ≤ 0xFFFF`. -/
inductive LinesBounded : Function → Prop where
  | mk (d a l : Nat) (n : String) (inl : FunctionList) (ls : List Line)
       (c : String) (g : Nat) :
      (∀ x ∈ ls, x.line ≤ 0xffff) → LinesBoundedL inl →
      LinesBounded (.mk d a l n inl ls c g)
/-- `LinesBounded` for every member of an inline list. -/
inductive LinesBoundedL : FunctionList → Prop where
  | nil : LinesBoundedL .nil
  | cons (f : Function) (fs : FunctionList) :
      LinesBounded f → LinesBoundedL fs → LinesBoundedL (.cons f fs)
end

/-- Well-formedness of one sequence as `DwarfLineProgram::parse` builds it:
nonempty rows with strictly increasing addresses, and `low_address` equal to
the first row's address. -/
def SeqWF (s : DwarfSeq) : Prop :=
  s.rows ≠ [] ∧ List.Pairwise (fun a b => a.address < b.address) s.rows ∧
  s.rows.head?.map DwarfRow.address = some s.low_address

/-- The candidate test of `get_rows`: the closed interval
`[low_address, high_address]` meets the closed interval `[begin, end]`. -/
def overlaps (rng : Range) (s : DwarfSeq) : Bool :=
  !(decide (s.high_address < rng.begin_) || decide (rng.end_ < s.low_address))

/-- Invariant of the `DwarfLineProgram::parse` loop state: finished sequences
are well-formed, the accumulated rows are strictly increasing, and the last
accumulated address is at most `prev_address`. -/
def LPInv (st : LPState) : Prop :=
  (∀ s ∈ st.sequences, SeqWF s) ∧
  List.Pairwise (fun a b => a.address < b.address) st.sequence_rows ∧
  (∀ x, st.sequence_rows.getLast? = some x → x.address ≤ st.prev_address)

/-- A minimal walk context: image base 0, empty compilation directory, no
file table, no symbol table. -/
def simpleCtx : WalkCtx := ⟨0, "", 0, fun _ => none, none⟩

/-- File table mapping index 1 to `a.c` and index 3 to `b.c`. -/
def c4ft : Nat → Option (String × String) := fun i =>
  if i = 1 then some ("", "a.c") else if i = 3 then some ("", "b.c") else none

def c4ctx : WalkCtx := ⟨0, "dir", 0, c4ft, none⟩

/-- A line program with one sequence of two rows: address 0x10 in file 3
line 42, address 0x20 in file 1 line 7. -/
def c4rows : List ProgramRow :=
  [⟨0x10, false, 3, some 42⟩, ⟨0x20, false, 1, some 7⟩, ⟨0x40, true, 0, none⟩]

/-- A subprogram `P` over `[0x10, 0x40)` with an inlined subroutine `C` over
`[0x20, 0x40)` whose call site is file 3 line 42 — the same location the row
at 0x10 already carries. -/
def c4entries : List DieEntry :=
  [⟨0, .other, [], none⟩,
   ⟨1, .subprogram, [.low_pc 0x10, .high_pc_addr 0x40], some "P"⟩,
   ⟨1, .inlined_subroutine,
     [.low_pc 0x20, .high_pc_addr 0x40, .call_line 42, .call_file 3], some "C"⟩]

/-- A DCE stub: subprogram `A` with `low_pc = 0`, `high_pc = 0` whose
inlined-subroutine child `B` has concrete ranges. -/
def c5entries : List DieEntry :=
  [⟨0, .other, [], none⟩,
   ⟨1, .subprogram, [.low_pc 0, .high_pc_addr 0], some "A"⟩,
   ⟨1, .inlined_subroutine, [.low_pc 0x20, .high_pc_addr 0x30], some "B"⟩]

/-- A subprogram spanning exactly 2^32 bytes (more than `u32` can hold). -/
def c8entries : List DieEntry :=
  [⟨0, .other, [], none⟩,
   ⟨1, .subprogram, [.low_pc 0x1000, .high_pc_addr (0x1000 + 2 ^ 32)], some "big"⟩]

/-- A pre-existing function (as accumulated from a previously processed
unit) sitting in the shared output vector. -/
def preF : Function := .mk 1 0x100 8 "prev" .nil [] "d" 0

/-- A unit whose first function DIE is an inlined subroutine (before any
subprogram of this unit), followed by a subprogram at a lower address than
`preF`. -/
def c10entries : List DieEntry :=
  [⟨0, .inlined_subroutine, [.low_pc 0x20, .high_pc_addr 0x30], some "inl"⟩,
   ⟨0, .subprogram, [.low_pc 0x10, .high_pc_addr 0x18], some "sub"⟩]

instance : IsTotal Function (fun a b => a.addr ≤ b.addr) :=
  ⟨fun a b => Nat.le_total a.addr b.addr⟩

instance : IsTrans Function (fun a b => a.addr ≤ b.addr) :=
  ⟨fun _ _ _ h1 h2 => Nat.le_trans h1 h2⟩

instance : IsTotal DwarfSeq (fun a b => a.low_address ≤ b.low_address) :=
  ⟨fun a b => Nat.le_total a.low_address b.low_address⟩

instance : IsTrans DwarfSeq (fun a b => a.low_address ≤ b.low_address) :=
  ⟨fun _ _ _ h1 h2 => Nat.le_trans h1 h2⟩

/-- A DIE whose `DW_AT_abstract_origin` is a unit-local reference to its own
offset: ill-formed DWARF with a reference cycle of length one. -/
def cycDie : NameDie := ⟨[.abstract_origin (.UnitRef 0)]⟩

/-- The DIE store containing only `cycDie` at offset 0. -/
def cycDies : Nat → Option NameDie := fun offset => if offset = 0 then some cycDie else none

/-! ## Helper lemmas -/

theorem Function.lines_setLines (f : Function) (ls : List Line) :
    (f.setLines ls).lines = ls := by
  cases f
  rfl

theorem Function.lines_append_line (f : Function) (l : Line) :
    (f.append_line_if_changed l).lines = f.lines ∨
    (f.append_line_if_changed l).lines = f.lines ++ [l] := by
  unfold Function.append_line_if_changed
  cases h : f.lines.getLast? with
  | none => right; rw [Function.lines_setLines]
  | some last_line =>
    by_cases hc : last_line.original_file_id = l.original_file_id ∧ last_line.line = l.line
    · left; simp [hc]
    · right; simp [hc, Function.lines_setLines]

theorem getLast?_none_eq_nil {α : Type} (l : List α) (h : l.getLast? = none) : l = [] := by
  cases l with
  | nil => rfl
  | cons a rest =>
    rw [List.getLast?_eq_getLast (a :: rest) (by simp)] at h
    exact Option.noConfusion h

/-- The `u64` subtraction does not wrap when the subtrahend is no larger than
the minuend. -/
theorem wrapping_sub_of_le (a b : Nat) (hle : b ≤ a) (ha : a < U64MOD) :
    wrapping_sub a b = a - b := by
  have hb : b < U64MOD := lt_of_le_of_lt hle ha
  unfold wrapping_sub U64MOD at *
  omega

/-! ## Claim C3 -/

/-- C3: `parse_location` resolves ranges in a fixed order: collected
`DW_AT_ranges` entries win (early exit); an absent or zero `low_pc` yields
empty ranges; `high_pc` is the absolute address if present, else
`low_pc.wrapping_add(high_pc_rel)`; `low_pc = high_pc` yields empty ranges;
`low_pc > high_pc` fails with "invalid function with inverted range";
otherwise the single range `[low_pc, high_pc)` is returned. -/
theorem c3_parse_location_resolution_order (st : LocState) :
    (∀ attrs, parse_location attrs = resolve_location (collect_location attrs)) ∧
    (st.buf ≠ [] → resolve_location st = .ok ⟨st.call_line, st.call_file, st.buf⟩) ∧
    (st.buf = [] → (st.low_pc = none ∨ st.low_pc = some 0) →
      resolve_location st = .ok ⟨st.call_line, st.call_file, []⟩) ∧
    (∀ lp h, st.high_pc = some h → effective_high_pc st lp = some h) ∧
    (∀ lp rel, st.high_pc = none → st.high_pc_rel = some rel →
      effective_high_pc st lp = some (wrapping_add lp rel)) ∧
    (∀ lp hp, st.buf = [] → st.low_pc = some lp → lp ≠ 0 →
      effective_high_pc st lp = some hp →
      ((lp = hp → resolve_location st = .ok ⟨st.call_line, st.call_file, []⟩) ∧
       (hp < lp → resolve_location st = .error "invalid function with inverted range") ∧
       (lp < hp → resolve_location st = .ok ⟨st.call_line, st.call_file, [⟨lp, hp⟩]⟩))) := by
  refine ⟨fun _ => rfl, ?_, ?_, ?_, ?_, ?_⟩
  · intro h
    simp only [resolve_location, if_pos h]
  · rintro hbuf (hlow | hlow)
    · simp [resolve_location, hbuf, hlow]
    · simp [resolve_location, hbuf, hlow]
  · intro lp h hh
    simp [effective_high_pc, hh]
  · intro lp rel hh hrel
    simp [effective_high_pc, hh, hrel]
  · intro lp hp hbuf hlow hne heff
    refine ⟨?_, ?_, ?_⟩
    · intro heq
      subst heq
      simp [resolve_location, hbuf, hlow, hne, heff]
    · intro hlt
      have hne2 : lp ≠ hp := by omega
      simp [resolve_location, hbuf, hlow, hne, heff, hne2, hlt]
    · intro hlt
      have hne2 : lp ≠ hp := by omega
      have hnlt : ¬ hp < lp := by omega
      simp [resolve_location, hbuf, hlow, hne, heff, hne2, hnlt]

/-- Witness for C3: an inverted range fails, and a relative `high_pc` yields
the single range `[low_pc, low_pc + size)`. -/
theorem c3_parse_location_witness :
    parse_location [.low_pc 0x2000, .high_pc_addr 0x1000] =
      .error "invalid function with inverted range" ∧
    parse_location [.low_pc 0x1000, .high_pc_udata 0x40] =
      .ok ⟨none, none, [⟨0x1000, 0x1040⟩]⟩ := by
  constructor
  · have h := c3_parse_location_resolution_order
      (collect_location [.low_pc 0x2000, .high_pc_addr 0x1000])
    exact (h.1 _).trans
      (((h.2.2.2.2.2 0x2000 0x1000 rfl rfl (by decide) rfl).2.1) (by decide))
  · have h := c3_parse_location_resolution_order
      (collect_location [.low_pc 0x1000, .high_pc_udata 0x40])
    have heff : effective_high_pc
        (collect_location [.low_pc 0x1000, .high_pc_udata 0x40]) 0x1000 = some 0x1040 := by
      have := h.2.2.2.2.1 0x1000 0x40 rfl rfl
      rw [this]
      norm_num [wrapping_add, U64MOD]
    exact (h.1 _).trans
      (((h.2.2.2.2.2 0x1000 0x1040 rfl rfl (by decide) heff).2.2) (by decide))

/-! ## Claim C6 -/

/-- Counterexample to C6: a unit whose top DIE is not `DW_TAG_compile_unit`
makes `Unit::parse` fail with "missing compilation unit" — it does not
return "no unit". -/
theorem c6_non_compile_unit_counterexample :
    errorOf (DwarfUnit.parse (some ⟨.other, []⟩) 0 4) = some "missing compilation unit" ∧
    DwarfUnit.parse (some ⟨.other, []⟩) 0 4 ≠ .ok none := by
  refine ⟨rfl, ?_⟩
  intro h
  exact Except.noConfusion h

/-- C6 as amended: `Unit::parse` returns "no unit" when the unit has no top
DIE or the (compile-unit) top DIE lacks a `DW_AT_stmt_list` with a
`DebugLineRef` value; a top DIE that is not `DW_TAG_compile_unit` is instead
a hard error "missing compilation unit". -/
theorem c6_unit_parse_skip (top : Option UnitDie) (index version : Nat) :
    (top = none → DwarfUnit.parse top index version = .ok none) ∧
    (∀ die, top = some die → die.tag = .compile_unit →
      (∀ offset, die.attr_value .stmt_list ≠ some (.DebugLineRef offset)) →
      DwarfUnit.parse top index version = .ok none) ∧
    (∀ die, top = some die → die.tag ≠ .compile_unit →
      DwarfUnit.parse top index version = .error "missing compilation unit") := by
  refine ⟨?_, ?_, ?_⟩
  · intro h; rw [h]; rfl
  · intro die htop htag hstmt
    rw [htop]
    have htag2 : ¬ die.tag ≠ DwTag.compile_unit := by simp [htag]
    simp only [DwarfUnit.parse, if_neg htag2]
  · intro die htop htag
    rw [htop]
    simp only [DwarfUnit.parse, if_pos htag]

/-- Witness for C6 (amended): a compile-unit DIE without `DW_AT_stmt_list`
is skipped, and a non-compile-unit top DIE errors. -/
theorem c6_unit_parse_witness :
    DwarfUnit.parse (some ⟨.compile_unit, []⟩) 3 4 = .ok none ∧
    DwarfUnit.parse (some ⟨.subprogram, []⟩) 3 4 = .error "missing compilation unit" := by
  constructor
  · exact (c6_unit_parse_skip (some ⟨.compile_unit, []⟩) 3 4).2.1 _ rfl rfl
      (fun offset h => Option.noConfusion h)
  · exact (c6_unit_parse_skip (some ⟨.subprogram, []⟩) 3 4).2.2 _ rfl (by decide)

/-! ## Claim C7 -/

/-- C7 is a code bug: `resolve_function_name` has no depth bound, and on the
cyclic self-reference `cycDie` the recursion never finishes — for every call
stack budget `fuel` the fuelled embedding is still running (`none`), so the
Rust recursion diverges (stack overflow) instead of rejecting the cycle. -/
theorem c7_resolve_name_cycle_diverges (fuel : Nat) :
    resolve_function_name cycDies fuel cycDie = none := by
  induction fuel with
  | zero => rfl
  | succ n ih =>
    have ih2 : resolve_function_name cycDies n
        ⟨[NameAttr.abstract_origin (RefVal.UnitRef 0)]⟩ = none := ih
    simp [resolve_function_name, nameScan, resolve_reference, cycDies, cycDie, ih2]

/-! ## Claim C9 -/

/-- C9: under the caller's precondition `vmaddr ≤ address` (and addresses in
`u64` range), the subtractions `ranges[0].begin - vmaddr` (function address)
and `row.address - vmaddr` (line address) never wrap below zero: the stored
address plus `vmaddr` recovers the original address exactly. -/
theorem c9_no_underflow (vmaddr : Nat) (file_table : Nat → Option (String × String))
    (r0 rlast : Range) (row : DwarfRow)
    (hb : vmaddr ≤ r0.begin_) (hb64 : r0.begin_ < U64MOD)
    (hr : vmaddr ≤ row.address) (hr64 : row.address < U64MOD) :
    (∀ comp_dir lang depth name,
      (make_function vmaddr comp_dir lang depth name r0 rlast).addr + vmaddr = r0.begin_) ∧
    (∀ l, make_line vmaddr file_table row = .ok l → l.addr + vmaddr = row.address) ∧
    wrapping_sub r0.begin_ vmaddr = r0.begin_ - vmaddr ∧
    wrapping_sub row.address vmaddr = row.address - vmaddr := by
  have h1 := wrapping_sub_of_le r0.begin_ vmaddr hb hb64
  have h2 := wrapping_sub_of_le row.address vmaddr hr hr64
  refine ⟨?_, ?_, h1, h2⟩
  · intro comp_dir lang depth name
    show wrapping_sub r0.begin_ vmaddr + vmaddr = r0.begin_
    omega
  · intro l hl
    unfold make_line get_filename at hl
    cases hft : file_table row.file_index with
    | none => rw [hft] at hl; exact Except.noConfusion hl
    | some p =>
      rw [hft] at hl
      cases hl
      show wrapping_sub row.address vmaddr + vmaddr = row.address
      omega

/-- Witness for C9 at concrete addresses. -/
theorem c9_no_underflow_witness :
    (make_function 0x1000 "" 0 1 none ⟨0x2000, 0x3000⟩ ⟨0x2000, 0x3000⟩).addr + 0x1000 = 0x2000 ∧
    wrapping_sub 0x2500 0x1000 = 0x1500 := by
  have h := c9_no_underflow 0x1000 (fun _ => none) ⟨0x2000, 0x3000⟩ ⟨0x2000, 0x3000⟩
    ⟨0x2500, 1, none⟩ (by norm_num) (by norm_num [U64MOD]) (by norm_num) (by norm_num [U64MOD])
  exact ⟨h.1 "" 0 1 none, h.2.2.2⟩

/-! ## Claim C4 -/

/-- Counterexample to C4: on a unit where the inline call site of `C`
(file 3, line 42) coincides with the location the parent's preceding line
already carries, the call-site patch rewrites the parent's second line to
file 3 / line 42, leaving two consecutive lines that share both
`original_file_id` and `line`.  `get_functions` succeeds and its single
output function violates the dedup invariant. -/
theorem c4_dedup_counterexample :
    (funcsOf (get_functions c4ctx c4rows c4entries [])).length = 1 ∧
    ¬ LinesDedup (firstLines (get_functions c4ctx c4rows c4entries [])) := by
  constructor
  · decide
  · have h : firstLines (get_functions c4ctx c4rows c4entries []) =
      [⟨0x10, 3, "b.c", "", 42⟩, ⟨0x20, 3, "b.c", "", 42⟩] := by decide
    rw [h]
    simp [LinesDedup, List.chain'_cons]

/-- C4 as amended: the dedup invariant is maintained at append time —
`append_line_if_changed` never creates two consecutive lines sharing both
`original_file_id` and `line` — but inline call-site patching can rewrite or
insert lines so that two consecutive entries do share both fields. -/
theorem c4_append_line_dedup (f : Function) (l : Line)
    (h : LinesDedup f.lines) : LinesDedup (f.append_line_if_changed l).lines := by
  unfold Function.append_line_if_changed
  cases hlast : f.lines.getLast? with
  | none =>
    have hnil : f.lines = [] := by
      cases hls : f.lines with
      | nil => rfl
      | cons a rest =>
        rw [hls] at hlast
        simp [List.getLast?_eq_getLast] at hlast
    rw [Function.lines_setLines, hnil]
    exact List.chain'_singleton l
  | some x =>
    by_cases hc : x.original_file_id = l.original_file_id ∧ x.line = l.line
    · simpa [hc] using h
    · simp only [hc, if_false, Function.lines_setLines]
      rw [LinesDedup, List.chain'_append]
      refine ⟨h, List.chain'_singleton l, ?_⟩
      intro y hy z hz
      rw [hlast] at hy
      cases hy
      cases hz
      exact hc

/-- Witness for C4 (amended): appending a line with the same location keeps
the list unchanged, and appending a different one keeps it deduplicated. -/
theorem c4_append_line_witness :
    LinesDedup ((Function.mk 0 0 0 "" .nil [⟨1, 2, "", "", 3⟩] "" 0).append_line_if_changed
      ⟨4, 5, "", "", 3⟩).lines := by
  exact c4_append_line_dedup (Function.mk 0 0 0 "" .nil [⟨1, 2, "", "", 3⟩] "" 0)
    ⟨4, 5, "", "", 3⟩ (by simp [LinesDedup, Function.lines])

/-! ## Claim C5 -/

/-- C5: a visited function DIE whose parsed ranges are empty emits nothing
and sets `skipped_depth` to the current depth; while `skipped_depth = s` is
set, every entry at depth greater than `s` is passed over with no output and
no state change except the cursor; and on the concrete DCE stub (subprogram
with `low_pc = 0`, `high_pc = 0` whose inlined child has concrete ranges)
`get_functions` succeeds with zero output functions. -/
theorem c5_skipped_depth_suppression (ctx : WalkCtx) (seqs : List DwarfSeq)
    (st : WalkState) (e : DieEntry) :
    ((e.tag = .subprogram ∨ e.tag = .inlined_subroutine) →
      ∀ loc, parse_location e.attrs = .ok loc → loc.ranges = [] →
      walkVisit ctx seqs st e = .ok { st with skipped_depth := some st.depth }) ∧
    (∀ s, st.skipped_depth = some s → s < st.depth + e.movement →
      walkStep ctx seqs st e = .ok { st with depth := st.depth + e.movement }) ∧
    (funcsOf (get_functions simpleCtx [] c5entries []) = [] ∧
      errorOf (get_functions simpleCtx [] c5entries []) = none) := by
  refine ⟨?_, ?_, by decide, by decide⟩
  · intro htag loc hloc hranges
    have hcond : ¬(e.tag ≠ .subprogram ∧ e.tag ≠ .inlined_subroutine) := by
      rcases htag with h | h
      · simp [h]
      · simp [h]
    simp only [walkVisit, if_neg hcond, hloc, hranges]
  · intro s hskip hlt
    simp only [walkStep, hskip, if_pos hlt]

/-- Witness for C5: the stub subprogram sets the skip state, and the entry
at greater depth is passed over. -/
theorem c5_skipped_depth_witness :
    walkVisit simpleCtx [] ⟨1, none, []⟩
      ⟨1, .subprogram, [.low_pc 0, .high_pc_addr 0], none⟩ = .ok ⟨1, some 1, []⟩ ∧
    walkStep simpleCtx [] ⟨1, some 1, []⟩
      ⟨1, .inlined_subroutine, [.low_pc 0x20, .high_pc_addr 0x30], none⟩ =
      .ok ⟨2, some 1, []⟩ := by
  constructor
  · exact (c5_skipped_depth_suppression simpleCtx [] ⟨1, none, []⟩
      ⟨1, .subprogram, [.low_pc 0, .high_pc_addr 0], none⟩).1 (Or.inl rfl)
      ⟨none, none, []⟩ rfl rfl
  · exact (c5_skipped_depth_suppression simpleCtx [] ⟨1, some 1, []⟩
      ⟨1, .inlined_subroutine, [.low_pc 0x20, .high_pc_addr 0x30], none⟩).2.1 1 rfl
      (by decide)

/-! ## Claim C8, counterexample -/

/-- Counterexample to C8: a function spanning exactly 2^32 bytes comes out
with `len = 0` — the `as u32` cast truncates, it does not saturate (which
would give `0xFFFFFFFF`). -/
theorem c8_len_truncation_counterexample :
    (funcsOf (get_functions simpleCtx [] c8entries [])).map Function.len = [0] ∧
    min ((0x1000 + 2 ^ 32) - 0x1000) 0xffffffff = 0xffffffff ∧
    (0 : Nat) ≠ 0xffffffff := by
  refine ⟨by decide, by norm_num, by norm_num⟩

/-! ## Lemmas for claim C10: the other error paths carry different messages -/

theorem get_filename_error_msg (ft : Nat → Option (String × String)) (idx : Nat)
    (msg : String) (h : get_filename ft idx = .error msg) :
    msg = "invalid file reference" := by
  unfold get_filename at h
  split at h
  · exact (Except.error.inj h).symm
  · exact Except.noConfusion h

theorem parse_location_error_msg (attrs : List AttrVal) (msg : String)
    (h : parse_location attrs = .error msg) :
    msg = "invalid function with inverted range" := by
  unfold parse_location resolve_location at h
  split at h
  · exact Except.noConfusion h
  · split at h
    · exact Except.noConfusion h
    · split at h
      · exact Except.noConfusion h
      · split at h
        · exact Except.noConfusion h
        · split at h
          · exact Except.noConfusion h
          · split at h
            · exact (Except.error.inj h).symm
            · exact Except.noConfusion h

theorem make_line_error_msg (vmaddr : Nat) (ft : Nat → Option (String × String))
    (row : DwarfRow) (msg : String) (h : make_line vmaddr ft row = .error msg) :
    msg = "invalid file reference" := by
  unfold make_line at h
  split at h
  · rename_i e heq
    rw [← Except.error.inj h]
    exact get_filename_error_msg ft row.file_index e heq
  · exact Except.noConfusion h

/-- Generic error-message propagation along `foldlM` over `Except`. -/
theorem foldlM_except_error {σ α : Type} (Q : String → Prop)
    (step : σ → α → Except String σ)
    (hstep : ∀ s a msg, step s a = .error msg → Q msg) :
    ∀ (l : List α) (s : σ) (msg : String), l.foldlM step s = .error msg → Q msg := by
  intro l
  induction l with
  | nil =>
    intro s msg h
    simp only [List.foldlM_nil] at h
    exact Except.noConfusion h
  | cons a t ih =>
    intro s msg h
    rw [List.foldlM_cons] at h
    cases hsa : step s a with
    | error e =>
      rw [hsa] at h
      rw [← Except.error.inj h]
      exact hstep s a e hsa
    | ok s1 =>
      rw [hsa] at h
      exact ih s1 msg h

theorem add_lines_error_msg (vmaddr : Nat) (ft : Nat → Option (String × String))
    (seqs : List DwarfSeq) (ranges : List Range) (f : Function) (msg : String)
    (h : add_lines vmaddr ft seqs ranges f = .error msg) :
    msg = "invalid file reference" := by
  unfold add_lines at h
  refine foldlM_except_error (fun m => m = "invalid file reference") _ ?_ ranges f msg h
  intro s r m hm
  refine foldlM_except_error (fun m2 => m2 = "invalid file reference") _ ?_
    (get_rows seqs r) s m hm
  intro s2 row m2 hm2
  cases hml : make_line vmaddr ft row with
  | error e =>
    rw [hml] at hm2
    rw [← Except.error.inj hm2]
    exact make_line_error_msg vmaddr ft row e hml
  | ok l =>
    rw [hml] at hm2
    exact Except.noConfusion hm2

/-! ## Claim C10 -/

/-- C10: when the shared output vector already holds functions, an inlined
subroutine visited before any subprogram of the current unit attaches into
the last pre-existing function and the call succeeds — both without
call-site info (no patch) and with `DW_AT_call_line`/`DW_AT_call_file`
present (the parent's lines are patched); the "could not find inline parent
function" error fires when the vector is empty overall and is never raised
when the vector is nonempty; and the final sort by `addr` applies to the
whole vector, pre-existing entries included. -/
theorem c10_inline_parent_cross_unit (ctx : WalkCtx) (seqs : List DwarfSeq)
    (st : WalkState) (e : DieEntry) :
    (∀ pre p, st.funcs = pre ++ [p] → e.tag = .inlined_subroutine →
      ∀ loc, parse_location e.attrs = .ok loc →
      ∀ r0 rrest, loc.ranges = r0 :: rrest →
      ∀ func, add_lines ctx.vmaddr ctx.file_table seqs (r0 :: rrest)
        (make_function ctx.vmaddr ctx.comp_dir ctx.lang st.depth
          (function_name ctx true e r0 (List.getLastD rrest r0)) r0
          (List.getLastD rrest r0)) = .ok func →
      (loc.call_line = none ∨ loc.call_file = none) →
      walkVisit ctx seqs st e =
        .ok { st with funcs := pre ++ [attach_inline p st.depth func none] }) ∧
    (∀ pre p, st.funcs = pre ++ [p] → e.tag = .inlined_subroutine →
      ∀ loc, parse_location e.attrs = .ok loc →
      ∀ r0 rrest, loc.ranges = r0 :: rrest →
      ∀ func, add_lines ctx.vmaddr ctx.file_table seqs (r0 :: rrest)
        (make_function ctx.vmaddr ctx.comp_dir ctx.lang st.depth
          (function_name ctx true e r0 (List.getLastD rrest r0)) r0
          (List.getLastD rrest r0)) = .ok func →
      ∀ cl cf base_dir filename, loc.call_line = some cl → loc.call_file = some cf →
      get_filename ctx.file_table cf = .ok (base_dir, filename) →
      walkVisit ctx seqs st e =
        .ok { st with funcs := pre ++
          [attach_inline p st.depth func (some (cl, cf, base_dir, filename))] }) ∧
    (st.funcs = [] → e.tag = .inlined_subroutine →
      ∀ loc, parse_location e.attrs = .ok loc →
      ∀ r0 rrest, loc.ranges = r0 :: rrest →
      ∀ func, add_lines ctx.vmaddr ctx.file_table seqs (r0 :: rrest)
        (make_function ctx.vmaddr ctx.comp_dir ctx.lang st.depth
          (function_name ctx true e r0 (List.getLastD rrest r0)) r0
          (List.getLastD rrest r0)) = .ok func →
      walkVisit ctx seqs st e = .error "could not find inline parent function") ∧
    (st.funcs ≠ [] →
      walkVisit ctx seqs st e ≠ .error "could not find inline parent function") ∧
    (∀ prows funcs0, get_functions ctx prows [] funcs0 = .ok (sortFuncs funcs0)) ∧
    (∀ prows entries funcs0 out, get_functions ctx prows entries funcs0 = .ok out →
      List.Sorted (fun a b => a.addr ≤ b.addr) out) := by
  refine ⟨?_, ?_, ?_, ?_, ?_, ?_⟩
  · intro pre p hfuncs htag loc hloc r0 rrest hranges func hadd hpart
    have hcond : ¬(e.tag ≠ .subprogram ∧ e.tag ≠ .inlined_subroutine) := by simp [htag]
    rcases hpart with hcl | hcf
    · simp only [walkVisit, if_neg hcond, htag, hloc, hranges, hadd, hfuncs, hcl,
        List.getLast?_concat, List.dropLast_concat, beq_self_eq_true, if_false]
      simp
    · cases hcl2 : loc.call_line with
      | none =>
        simp only [walkVisit, if_neg hcond, htag, hloc, hranges, hadd, hfuncs, hcl2,
          List.getLast?_concat, List.dropLast_concat, beq_self_eq_true, if_false]
        simp
      | some cl =>
        simp only [walkVisit, if_neg hcond, htag, hloc, hranges, hadd, hfuncs, hcl2, hcf,
          List.getLast?_concat, List.dropLast_concat, beq_self_eq_true, if_false]
        simp
  · intro pre p hfuncs htag loc hloc r0 rrest hranges func hadd cl cf base_dir
      filename hcl hcf hgf
    have hcond : ¬(e.tag ≠ .subprogram ∧ e.tag ≠ .inlined_subroutine) := by simp [htag]
    simp only [walkVisit, if_neg hcond, htag, hloc, hranges, hadd, hfuncs, hcl, hcf, hgf,
      List.getLast?_concat, List.dropLast_concat, beq_self_eq_true, if_false]
    simp
  · intro hfuncs htag loc hloc r0 rrest hranges func hadd
    have hcond : ¬(e.tag ≠ .subprogram ∧ e.tag ≠ .inlined_subroutine) := by simp [htag]
    simp only [walkVisit, if_neg hcond, htag, hloc, hranges, hadd, hfuncs,
      List.getLast?_nil, beq_self_eq_true, if_false]
    simp
  · intro hne hcontra
    unfold walkVisit at hcontra
    by_cases htag2 : e.tag ≠ DwTag.subprogram ∧ e.tag ≠ DwTag.inlined_subroutine
    · rw [if_pos htag2] at hcontra
      exact Except.noConfusion hcontra
    · rw [if_neg htag2] at hcontra
      cases hloc : parse_location e.attrs with
      | error msg =>
        simp only [hloc] at hcontra
        have hmsg := parse_location_error_msg e.attrs msg hloc
        have h2 : msg = "could not find inline parent function" :=
          Except.error.inj hcontra
        rw [hmsg] at h2
        exact absurd h2 (by decide)
      | ok loc =>
        simp only [hloc] at hcontra
        cases hr : loc.ranges with
        | nil =>
          simp only [hr] at hcontra
          exact Except.noConfusion hcontra
        | cons r0 rrest =>
          simp only [hr] at hcontra
          cases hadd : add_lines ctx.vmaddr ctx.file_table seqs (r0 :: rrest)
              (make_function ctx.vmaddr ctx.comp_dir ctx.lang st.depth
                (function_name ctx (e.tag == DwTag.inlined_subroutine) e r0
                  (List.getLastD rrest r0)) r0 (List.getLastD rrest r0)) with
          | error msg =>
            simp only [hadd] at hcontra
            have hmsg := add_lines_error_msg _ _ _ _ _ msg hadd
            have h2 : msg = "could not find inline parent function" :=
              Except.error.inj hcontra
            rw [hmsg] at h2
            exact absurd h2 (by decide)
          | ok func =>
            simp only [hadd] at hcontra
            by_cases hinl : (e.tag == DwTag.inlined_subroutine) = false
            · rw [if_pos hinl] at hcontra
              exact Except.noConfusion hcontra
            · rw [if_neg hinl] at hcontra
              cases hgl : st.funcs.getLast? with
              | none => exact hne (getLast?_none_eq_nil _ hgl)
              | some parent =>
                simp only [hgl] at hcontra
                cases hcl : loc.call_line with
                | none =>
                  simp only [hcl] at hcontra
                  exact Except.noConfusion hcontra
                | some cl =>
                  simp only [hcl] at hcontra
                  cases hcf : loc.call_file with
                  | none =>
                    simp only [hcf] at hcontra
                    exact Except.noConfusion hcontra
                  | some cf =>
                    simp only [hcf] at hcontra
                    cases hgf : get_filename ctx.file_table cf with
                    | error msg =>
                      simp only [hgf] at hcontra
                      have hmsg := get_filename_error_msg _ cf msg hgf
                      have h2 : msg = "could not find inline parent function" :=
                        Except.error.inj hcontra
                      rw [hmsg] at h2
                      exact absurd h2 (by decide)
                    | ok pnm =>
                      obtain ⟨bd, fn⟩ := pnm
                      simp only [hgf] at hcontra
                      exact Except.noConfusion hcontra
  · intro prows funcs0
    rfl
  · intro prows entries funcs0 out h
    simp only [get_functions] at h
    cases hfold : List.foldlM (walkStep ctx (DwarfLineProgram.parse prows))
        ({ depth := 0, skipped_depth := none, funcs := funcs0 } : WalkState) entries with
    | error msg => rw [hfold] at h; exact Except.noConfusion h
    | ok stf =>
      rw [hfold] at h
      cases h
      exact List.sorted_insertionSort _ _

/-- Witness for C10: an inline entry that carries `DW_AT_call_line = 42` and
`DW_AT_call_file = 3` (the patching path) attaches into the pre-existing
`preF` with the patch applied, and the final sort applies to a vector that
already holds functions. -/
theorem c10_inline_parent_witness :
    walkVisit c4ctx [] ⟨1, none, [preF]⟩
      ⟨1, .inlined_subroutine,
        [.low_pc 0x20, .high_pc_addr 0x40, .call_line 42, .call_file 3], some "C"⟩ =
      .ok ⟨1, none, [attach_inline preF 1
        (make_function 0 "dir" 0 1 (some "C") ⟨0x20, 0x40⟩ ⟨0x20, 0x40⟩)
        (some (42, 3, "", "b.c"))]⟩ ∧
    get_functions c4ctx [] []
        [preF, make_function 0 "dir" 0 0 (some "sub") ⟨0x10, 0x18⟩ ⟨0x10, 0x18⟩] =
      .ok (sortFuncs [preF, make_function 0 "dir" 0 0 (some "sub") ⟨0x10, 0x18⟩ ⟨0x10, 0x18⟩]) := by
  constructor
  · exact (c10_inline_parent_cross_unit c4ctx [] ⟨1, none, [preF]⟩
      ⟨1, .inlined_subroutine,
        [.low_pc 0x20, .high_pc_addr 0x40, .call_line 42, .call_file 3], some "C"⟩).2.1
      [] preF rfl rfl ⟨some 42, some 3, [⟨0x20, 0x40⟩]⟩ rfl ⟨0x20, 0x40⟩ [] rfl
      (make_function 0 "dir" 0 1 (some "C") ⟨0x20, 0x40⟩ ⟨0x20, 0x40⟩) rfl
      42 3 "" "b.c" rfl rfl rfl
  · exact (c10_inline_parent_cross_unit c4ctx [] ⟨0, none, []⟩
      ⟨0, .other, [], none⟩).2.2.2.2.1 []
      [preF, make_function 0 "dir" 0 0 (some "sub") ⟨0x10, 0x18⟩ ⟨0x10, 0x18⟩]

/-! ## Claim C2 -/

/-- C2: `DwarfLineProgram::parse` materializes sequences by exactly the
claimed rules: an `end_sequence` row closes the accumulated rows into a
sequence with `low_address` the first accumulated row's address and
`high_address` the row's address (or `prev_address + 1` when the row's
address regressed) and resets `prev_address` to 0; a non-end row with a
regressed address is dropped; a non-end row at the last accumulated address
overwrites that row's `file_index` and `line`; any other non-end row is
appended with `prev_address` set to its address; a final unterminated
sequence is closed with `high_address = prev_address + 1`; and the resulting
sequences are sorted by `low_address` ascending. -/
theorem c2_line_program_parse_rules (st : LPState) (r : ProgramRow) :
    (∀ r0 rest, r.end_sequence = true → st.sequence_rows = r0 :: rest →
      lineStep st r =
        { sequences := st.sequences ++
            [{ low_address := r0.address,
               high_address := if r.address < st.prev_address then st.prev_address + 1
                               else r.address,
               rows := st.sequence_rows }],
          sequence_rows := [], prev_address := 0 }) ∧
    (r.end_sequence = true → st.sequence_rows = [] →
      lineStep st r = { st with prev_address := 0 }) ∧
    (r.end_sequence = false → r.address < st.prev_address → lineStep st r = st) ∧
    (∀ pre last, r.end_sequence = false → ¬ r.address < st.prev_address →
      st.sequence_rows = pre ++ [last] → last.address = r.address →
      lineStep st r =
        { st with
          sequence_rows := pre ++ [{ last with file_index := r.file_index, line := r.line }],
          prev_address := r.address }) ∧
    (r.end_sequence = false → ¬ r.address < st.prev_address →
      (∀ last, st.sequence_rows.getLast? = some last → last.address ≠ r.address) →
      lineStep st r =
        { st with sequence_rows := st.sequence_rows ++ [⟨r.address, r.file_index, r.line⟩],
                  prev_address := r.address }) ∧
    (∀ r0 rest, st.sequence_rows = r0 :: rest →
      lineFinish st = st.sequences ++
        [{ low_address := r0.address, high_address := st.prev_address + 1,
           rows := st.sequence_rows }]) ∧
    (∀ rows, List.Sorted (fun a b => a.low_address ≤ b.low_address)
      (DwarfLineProgram.parse rows)) := by
  refine ⟨?_, ?_, ?_, ?_, ?_, ?_, ?_⟩
  · intro r0 rest hend hrows
    simp only [lineStep, hend, if_true, hrows]
  · intro hend hrows
    simp only [lineStep, hend, if_true, hrows]
  · intro hend hlt
    simp only [lineStep, hend, Bool.false_eq_true, if_false, if_pos hlt]
  · intro pre last hend hnlt hrows haddr
    simp only [lineStep, hend, Bool.false_eq_true, if_false, if_neg hnlt, hrows,
      List.getLast?_concat, List.dropLast_concat, haddr, if_pos rfl]
    simp
  · intro hend hnlt hne
    simp only [lineStep, hend, Bool.false_eq_true, if_false, if_neg hnlt]
    cases hl : st.sequence_rows.getLast? with
    | none =>
      have hnil := getLast?_none_eq_nil _ hl
      simp [hnil]
    | some last =>
      have := hne last hl
      simp [this]
  · intro r0 rest hrows
    simp only [lineFinish, hrows]
  · intro rows
    exact List.sorted_insertionSort _ _

/-- Witness for C2: a regressed end row closes with `prev_address + 1`, a
duplicate-address row overwrites in place, and an unterminated program is
closed with `prev_address + 1`. -/
theorem c2_line_program_witness :
    lineStep ⟨[], [⟨5, 1, some 2⟩], 5⟩ ⟨3, true, 0, none⟩ =
      ⟨[⟨5, 6, [⟨5, 1, some 2⟩]⟩], [], 0⟩ ∧
    lineStep ⟨[], [⟨5, 1, some 2⟩], 5⟩ ⟨5, false, 9, some 8⟩ =
      ⟨[], [⟨5, 9, some 8⟩], 5⟩ ∧
    lineFinish ⟨[], [⟨7, 1, none⟩], 7⟩ = [⟨7, 8, [⟨7, 1, none⟩]⟩] := by
  refine ⟨?_, ?_, ?_⟩
  · exact (c2_line_program_parse_rules ⟨[], [⟨5, 1, some 2⟩], 5⟩ ⟨3, true, 0, none⟩).1
      ⟨5, 1, some 2⟩ [] rfl rfl
  · exact (c2_line_program_parse_rules ⟨[], [⟨5, 1, some 2⟩], 5⟩
      ⟨5, false, 9, some 8⟩).2.2.2.1 [] ⟨5, 1, some 2⟩ rfl (by decide) rfl rfl
  · exact (c2_line_program_parse_rules ⟨[], [⟨7, 1, none⟩], 7⟩
      ⟨0, false, 0, none⟩).2.2.2.2.2.1 ⟨7, 1, none⟩ [] rfl

/-! ## List lemmas for claim C1 -/

theorem mem_of_getLast?_eq {α : Type} {L : List α} {y : α} (h : L.getLast? = some y) :
    y ∈ L := by
  cases L with
  | nil => exact Option.noConfusion h
  | cons a t =>
    rw [List.getLast?_eq_getLast (a :: t) (by simp)] at h
    injection h with h2
    rw [← h2]
    exact List.getLast_mem _

theorem sorted_le_getLast : ∀ (L : List DwarfRow),
    List.Pairwise (fun a b => a.address < b.address) L →
    ∀ y, L.getLast? = some y → ∀ x ∈ L, x.address ≤ y.address := by
  intro L
  induction L with
  | nil => intro _ y hy; exact absurd hy (by simp)
  | cons a t ih =>
    intro h y hy x hx
    cases t with
    | nil =>
      simp only [List.getLast?_singleton, Option.some.injEq] at hy
      simp only [List.mem_singleton] at hx
      subst hy; subst hx
      exact Nat.le_refl _
    | cons b t2 =>
      rw [List.getLast?_cons_cons] at hy
      rcases List.mem_cons.mp hx with rfl | hx2
      · have hmem : y ∈ b :: t2 := mem_of_getLast?_eq hy
        have := (List.pairwise_cons.mp h).1 y hmem
        omega
      · exact ih (List.Pairwise.of_cons h) y hy x hx2

theorem take_countP_lt (e : Nat) : ∀ (L : List DwarfRow),
    List.Pairwise (fun a b => a.address < b.address) L →
    ∀ x ∈ L.take (L.countP (fun r => decide (r.address < e))), x.address < e := by
  intro L
  induction L with
  | nil => simp
  | cons a t ih =>
    intro h
    have htail := List.Pairwise.of_cons h
    by_cases ha : a.address < e
    · have hc : (a :: t).countP (fun r => decide (r.address < e)) =
          t.countP (fun r => decide (r.address < e)) + 1 := by
        rw [List.countP_cons]; simp [ha]
      rw [hc, List.take_succ_cons]
      intro x hx
      rcases List.mem_cons.mp hx with rfl | hx2
      · exact ha
      · exact ih htail x hx2
    · have hz : (a :: t).countP (fun r => decide (r.address < e)) = 0 := by
        rw [List.countP_eq_zero]
        intro b hb
        simp only [decide_eq_true_eq]
        rcases List.mem_cons.mp hb with rfl | hb2
        · exact ha
        · have := (List.pairwise_cons.mp h).1 b hb2
          omega
      rw [hz]
      simp

theorem drop_countP_ge (b : Nat) : ∀ (L : List DwarfRow),
    List.Pairwise (fun a b2 => a.address < b2.address) L →
    ∀ x ∈ L.drop (L.countP (fun r => decide (r.address < b))), b ≤ x.address := by
  intro L
  induction L with
  | nil => simp
  | cons a t ih =>
    intro h
    have htail := List.Pairwise.of_cons h
    by_cases ha : a.address < b
    · have hc : (a :: t).countP (fun r => decide (r.address < b)) =
          t.countP (fun r => decide (r.address < b)) + 1 := by
        rw [List.countP_cons]; simp [ha]
      rw [hc, List.drop_succ_cons]
      exact ih htail
    · have hz : (a :: t).countP (fun r => decide (r.address < b)) = 0 := by
        rw [List.countP_eq_zero]
        intro y hy
        simp only [decide_eq_true_eq]
        rcases List.mem_cons.mp hy with rfl | hy2
        · exact ha
        · have := (List.pairwise_cons.mp h).1 y hy2
          omega
      rw [hz, List.drop_zero]
      intro x hx
      rcases List.mem_cons.mp hx with rfl | hx2
      · omega
      · have := (List.pairwise_cons.mp h).1 x hx2
        omega

theorem tail_take_subset {α : Type} (L : List α) (n : Nat) : (L.take n).tail ⊆ L.tail := by
  cases L with
  | nil => simp
  | cons a t =>
    cases n with
    | zero => simp
    | succ m =>
      rw [List.take_succ_cons, List.tail_cons, List.tail_cons]
      exact List.take_subset m t

theorem head?_take_of_ne {α : Type} (L : List α) (n : Nat) (hn : n ≠ 0) :
    (L.take n).head? = L.head? := by
  cases L with
  | nil => simp
  | cons a t =>
    cases n with
    | zero => exact absurd rfl hn
    | succ m => rw [List.take_succ_cons, List.head?_cons, List.head?_cons]

theorem drop_length_sub_one {α : Type} : ∀ (L : List α) (hne : L ≠ []),
    L.drop (L.length - 1) = [L.getLast hne] := by
  intro L
  induction L with
  | nil => intro h; exact absurd rfl h
  | cons a t ih =>
    intro _
    cases t with
    | nil => simp
    | cons b t2 =>
      have h2 : (b :: t2 : List α) ≠ [] := by simp
      have hlen : (a :: b :: t2).length - 1 = ((b :: t2).length - 1) + 1 := by
        simp only [List.length_cons]
        omega
      rw [hlen, List.drop_succ_cons, List.getLast_cons h2]
      exact ih h2

/-- When every sequence starts strictly above `range.begin`, `get_rows`
finds no start row anywhere (`Err(0)` in every candidate) and yields the
empty slice. -/
theorem get_rows_nil_of_all_above : ∀ (seqs : List DwarfSeq) (rng : Range),
    (∀ s ∈ seqs, SeqWF s ∧ rng.begin_ < s.low_address) →
    get_rows seqs rng = [] := by
  intro seqs rng
  induction seqs with
  | nil => intro _; rfl
  | cons seq rest ih =>
    intro h
    obtain ⟨⟨hne, hsort, hhead⟩, hlow⟩ := h seq (List.mem_cons_self _ _)
    have hall : ∀ x ∈ seq.rows, rng.begin_ < x.address := by
      intro x hx
      cases hrows : seq.rows with
      | nil => rw [hrows] at hx; exact absurd hx (List.not_mem_nil x)
      | cons r0 rtail =>
        rw [hrows] at hhead hsort hx
        simp only [List.head?_cons, Option.map_some', Option.some.injEq] at hhead
        rcases List.mem_cons.mp hx with rfl | hx2
        · omega
        · have := (List.pairwise_cons.mp hsort).1 x hx2
          omega
    have hcount : lowerCount seq.rows rng.begin_ = 0 := by
      rw [lowerCount, List.countP_eq_zero]
      intro x hx
      simp only [decide_eq_true_eq]
      have := hall x hx
      omega
    have hhas : hasAddr seq.rows rng.begin_ = false := by
      rw [hasAddr, List.any_eq_false]
      intro x hx
      have := hall x hx
      simp only [beq_iff_eq]
      omega
    have hrest := ih (fun s hs => h s (List.mem_cons_of_mem _ hs))
    by_cases hskip : seq.high_address < rng.begin_ ∨ rng.end_ < seq.low_address
    · simp only [get_rows, if_pos hskip]
      exact hrest
    · simp only [get_rows, if_neg hskip, hcount, hhas, Bool.false_eq_true, if_false,
        if_pos rfl]
      exact hrest

theorem drop_pred_split {α : Type} (L : List α) (k : Nat) (_h1 : 1 ≤ k)
    (h2 : k ≤ L.length) (htne : L.take k ≠ []) :
    L.drop (k - 1) = (L.take k).getLast htne :: L.drop k := by
  conv_lhs => rw [← List.take_append_drop k L]
  rw [List.drop_append_eq_append_drop]
  have hlen : (L.take k).length = k := by
    rw [List.length_take]
    omega
  rw [hlen]
  have hzz : k - 1 - k = 0 := by omega
  rw [hzz, List.drop_zero]
  have hdl : (L.take k).drop (k - 1) = [(L.take k).getLast htne] := by
    have := drop_length_sub_one (L.take k) htne
    rw [hlen] at this
    exact this
  rw [hdl]
  rfl

/-- Behaviour of `get_rows` on a well-formed, sorted sequence list: every
returned row is below `range.end`; every returned row after the first is at
or above `range.begin`; and a nonempty result is a contiguous slice of the
rows of the first overlapping sequence, whose leading row is either at or
above `range.begin` or is the row at the largest address strictly below
`range.begin` in that sequence. -/
theorem get_rows_spec : ∀ (seqs : List DwarfSeq) (rng : Range),
    (∀ s ∈ seqs, SeqWF s) →
    List.Pairwise (fun a b => a.low_address ≤ b.low_address) seqs →
    (∀ row ∈ get_rows seqs rng, row.address < rng.end_) ∧
    (∀ row ∈ (get_rows seqs rng).tail, rng.begin_ ≤ row.address) ∧
    (get_rows seqs rng ≠ [] →
      ∃ s, seqs.find? (overlaps rng) = some s ∧
        (∃ pre post, s.rows = pre ++ get_rows seqs rng ++ post) ∧
        ∀ h, (get_rows seqs rng).head? = some h →
          rng.begin_ ≤ h.address ∨
          (h.address < rng.begin_ ∧
            ∀ row ∈ s.rows, row.address < rng.begin_ → row.address ≤ h.address)) := by
  intro seqs rng
  induction seqs with
  | nil =>
    intro _ _
    refine ⟨by simp [get_rows], by simp [get_rows], fun h => absurd rfl h⟩
  | cons seq rest ih =>
    intro hwf hsorted
    obtain ⟨hne, hsort, hhead⟩ := hwf seq (List.mem_cons_self _ _)
    have hrest := ih (fun s hs => hwf s (List.mem_cons_of_mem _ hs))
      (List.Pairwise.of_cons hsorted)
    by_cases hskip : seq.high_address < rng.begin_ ∨ rng.end_ < seq.low_address
    · -- the sequence fails the interval test and is skipped
      have hrw : get_rows (seq :: rest) rng = get_rows rest rng := by
        simp only [get_rows, if_pos hskip]
      have hov : ¬ overlaps rng seq = true := by
        simp only [overlaps, Bool.not_eq_true, Bool.not_eq_false', Bool.or_eq_true,
          decide_eq_true_eq]
        exact hskip
      rw [hrw, List.find?_cons_of_neg _ hov]
      exact hrest
    · have hskip2 := hskip
      push_neg at hskip2
      have hov : overlaps rng seq = true := by
        simp [overlaps, hskip2.1, hskip2.2]
      by_cases hhas : hasAddr seq.rows rng.begin_ = true
      · -- the start address is present: the slice starts at its row
        have hrw : get_rows (seq :: rest) rng =
            (seq.rows.drop (lowerCount seq.rows rng.begin_)).take
              (lowerCount (seq.rows.drop (lowerCount seq.rows rng.begin_)) rng.end_) := by
          simp only [get_rows, if_neg hskip, hhas, if_true]
        have hLsort : List.Pairwise (fun a b => a.address < b.address)
            (seq.rows.drop (lowerCount seq.rows rng.begin_)) :=
          List.Pairwise.sublist (List.drop_sublist _ _) hsort
        have hge : ∀ row ∈ get_rows (seq :: rest) rng, rng.begin_ ≤ row.address := by
          intro row hrow
          rw [hrw] at hrow
          exact drop_countP_ge rng.begin_ seq.rows hsort row
            (List.take_subset _ _ hrow)
        refine ⟨?_, ?_, ?_⟩
        · intro row hrow
          rw [hrw] at hrow
          exact take_countP_lt rng.end_ _ hLsort row hrow
        · intro row hrow
          exact hge row (List.tail_subset _ hrow)
        · intro hres
          refine ⟨seq, List.find?_cons_of_pos _ hov, ?_, ?_⟩
          · refine ⟨seq.rows.take (lowerCount seq.rows rng.begin_),
              (seq.rows.drop (lowerCount seq.rows rng.begin_)).drop
                (lowerCount (seq.rows.drop (lowerCount seq.rows rng.begin_)) rng.end_), ?_⟩
            rw [hrw, List.append_assoc, List.take_append_drop, List.take_append_drop]
          · intro h hh
            left
            exact hge h (List.mem_of_mem_head? hh)
      · have hhasf : hasAddr seq.rows rng.begin_ = false := by
          cases hb : hasAddr seq.rows rng.begin_
          · rfl
          · exact absurd hb hhas
        by_cases hd0 : lowerCount seq.rows rng.begin_ = 0
        · -- Err(0): no usable start row here, and (by sortedness) nowhere later
          have hrw : get_rows (seq :: rest) rng = get_rows rest rng := by
            simp only [get_rows, if_neg hskip, hhasf, Bool.false_eq_true, if_false,
              hd0, if_pos rfl, if_true]
          have hlow_gt : rng.begin_ < seq.low_address := by
            cases hrows : seq.rows with
            | nil => exact absurd hrows hne
            | cons r0 rtail =>
              rw [hrows] at hhead
              simp only [List.head?_cons, Option.map_some', Option.some.injEq] at hhead
              have h1 : ¬ r0.address < rng.begin_ := by
                have := List.countP_eq_zero.mp hd0 r0 (by rw [hrows]; exact List.mem_cons_self _ _)
                simpa using this
              have h2 : ¬ r0.address = rng.begin_ := by
                have := List.any_eq_false.mp hhasf r0 (by rw [hrows]; exact List.mem_cons_self _ _)
                simpa using this
              omega
          have hnil : get_rows rest rng = [] := by
            apply get_rows_nil_of_all_above
            intro s hs
            have hle := (List.pairwise_cons.mp hsorted).1 s hs
            exact ⟨hwf s (List.mem_cons_of_mem _ hs), by omega⟩
          rw [hrw, hnil]
          refine ⟨by simp, by simp, fun h => absurd rfl h⟩
        · -- Err(next) with next ≥ 1: the slice starts one row below range.begin
          have hd1 : 1 ≤ lowerCount seq.rows rng.begin_ := Nat.one_le_iff_ne_zero.mpr hd0
          have hrw : get_rows (seq :: rest) rng =
              (seq.rows.drop (lowerCount seq.rows rng.begin_ - 1)).take
                (lowerCount (seq.rows.drop (lowerCount seq.rows rng.begin_ - 1)) rng.end_) := by
            simp only [get_rows, if_neg hskip, hhasf, Bool.false_eq_true, if_false,
              if_neg hd0]
          have hL1sort : List.Pairwise (fun a b => a.address < b.address)
              (seq.rows.drop (lowerCount seq.rows rng.begin_ - 1)) :=
            List.Pairwise.sublist (List.drop_sublist _ _) hsort
          have hdlen : lowerCount seq.rows rng.begin_ ≤ seq.rows.length :=
            List.countP_le_length _
          have htake_len : (seq.rows.take (lowerCount seq.rows rng.begin_)).length =
              lowerCount seq.rows rng.begin_ := by
            rw [List.length_take]
            omega
          have htne : seq.rows.take (lowerCount seq.rows rng.begin_) ≠ [] := by
            intro hteq
            rw [hteq] at htake_len
            simp only [List.length_nil] at htake_len
            omega
          have hsplit : seq.rows.drop (lowerCount seq.rows rng.begin_ - 1) =
              (seq.rows.take (lowerCount seq.rows rng.begin_)).getLast htne ::
                seq.rows.drop (lowerCount seq.rows rng.begin_) :=
            drop_pred_split seq.rows (lowerCount seq.rows rng.begin_) hd1 hdlen htne
          have hy_mem_take : (seq.rows.take (lowerCount seq.rows rng.begin_)).getLast htne ∈
              seq.rows.take (lowerCount seq.rows rng.begin_) := List.getLast_mem htne
          have hy_lt : ((seq.rows.take (lowerCount seq.rows rng.begin_)).getLast htne).address <
              rng.begin_ :=
            take_countP_lt rng.begin_ seq.rows hsort _ hy_mem_take
          have hy_max : ∀ row ∈ seq.rows, row.address < rng.begin_ →
              row.address ≤ ((seq.rows.take (lowerCount seq.rows rng.begin_)).getLast htne).address := by
            intro row hrow hlt
            have hsplitmem : row ∈ seq.rows.take (lowerCount seq.rows rng.begin_) ∨
                row ∈ seq.rows.drop (lowerCount seq.rows rng.begin_) := by
              rw [← List.mem_append, List.take_append_drop]
              exact hrow
            rcases hsplitmem with h1 | h2
            · exact sorted_le_getLast _
                (List.Pairwise.sublist (List.take_sublist _ _) hsort) _
                (List.getLast?_eq_getLast _ htne) row h1
            · have := drop_countP_ge rng.begin_ seq.rows hsort row h2
              omega
          refine ⟨?_, ?_, ?_⟩
          · intro row hrow
            rw [hrw] at hrow
            exact take_countP_lt rng.end_ _ hL1sort row hrow
          · intro row hrow
            rw [hrw] at hrow
            have h1 : row ∈ (seq.rows.drop (lowerCount seq.rows rng.begin_ - 1)).tail :=
              tail_take_subset _ _ hrow
            rw [hsplit, List.tail_cons] at h1
            exact drop_countP_ge rng.begin_ seq.rows hsort row h1
          · intro hres
            refine ⟨seq, List.find?_cons_of_pos _ hov, ?_, ?_⟩
            · refine ⟨seq.rows.take (lowerCount seq.rows rng.begin_ - 1),
                (seq.rows.drop (lowerCount seq.rows rng.begin_ - 1)).drop
                  (lowerCount (seq.rows.drop (lowerCount seq.rows rng.begin_ - 1)) rng.end_), ?_⟩
              rw [hrw, List.append_assoc, List.take_append_drop, List.take_append_drop]
            · intro h hh
              right
              have hlen1 : lowerCount (seq.rows.drop (lowerCount seq.rows rng.begin_ - 1))
                  rng.end_ ≠ 0 := by
                intro hz
                rw [hrw, hz] at hres
                simp at hres
              rw [hrw, head?_take_of_ne _ _ hlen1, hsplit, List.head?_cons,
                Option.some.injEq] at hh
              rw [← hh]
              exact ⟨hy_lt, hy_max⟩

/-- `lineStep` preserves the parse-loop invariant. -/
theorem lineStep_inv (st : LPState) (r : ProgramRow) (h : LPInv st) :
    LPInv (lineStep st r) := by
  obtain ⟨hseqs, hsort, hlast⟩ := h
  by_cases hend : r.end_sequence = true
  · cases hrows : st.sequence_rows with
    | nil =>
      have hstep : lineStep st r =
          { sequences := st.sequences, sequence_rows := st.sequence_rows,
            prev_address := 0 } := by
        simp only [lineStep, hend, if_true, hrows]
      rw [hstep]
      refine ⟨hseqs, hsort, ?_⟩
      intro x hx
      simp [hrows] at hx
    | cons r0 rtail =>
      have hstep : lineStep st r =
          { sequences := st.sequences ++
              [{ low_address := r0.address,
                 high_address := if r.address < st.prev_address then st.prev_address + 1
                                 else r.address,
                 rows := r0 :: rtail }],
            sequence_rows := [], prev_address := 0 } := by
        simp only [lineStep, hend, if_true, hrows]
      rw [hstep]
      refine ⟨?_, by simp, by simp⟩
      intro s hs
      simp only [List.mem_append, List.mem_singleton] at hs
      rcases hs with h1 | h2
      · exact hseqs s h1
      · subst h2
        rw [hrows] at hsort
        exact ⟨by simp, hsort, by simp⟩
  · by_cases hlt : r.address < st.prev_address
    · have hstep : lineStep st r = st := by
        simp only [lineStep, hend, Bool.false_eq_true, if_false, if_pos hlt]
      rw [hstep]
      exact ⟨hseqs, hsort, hlast⟩
    · cases hgl : st.sequence_rows.getLast? with
      | none =>
        have hstep : lineStep st r =
            { sequences := st.sequences,
              sequence_rows := [⟨r.address, r.file_index, r.line⟩],
              prev_address := r.address } := by
          simp only [lineStep, hend, Bool.false_eq_true, if_false, if_neg hlt, hgl]
        rw [hstep]
        refine ⟨hseqs, by simp, ?_⟩
        intro x hx
        simp only [List.getLast?_singleton, Option.some.injEq] at hx
        subst hx
        exact Nat.le_refl _
      | some last =>
        have hnenil : st.sequence_rows ≠ [] := by
          intro hq
          rw [hq] at hgl
          exact Option.noConfusion hgl
        have hlasteq : st.sequence_rows.getLast hnenil = last := by
          rw [List.getLast?_eq_getLast _ hnenil] at hgl
          injection hgl
        have hdecomp : st.sequence_rows = st.sequence_rows.dropLast ++ [last] := by
          conv_lhs => rw [← List.dropLast_append_getLast hnenil]
          rw [hlasteq]
        by_cases heq : last.address = r.address
        · have hstep : lineStep st r =
              { sequences := st.sequences,
                sequence_rows := st.sequence_rows.dropLast ++
                  [{ last with file_index := r.file_index, line := r.line }],
                prev_address := r.address } := by
            simp only [lineStep, hend, Bool.false_eq_true, if_false, if_neg hlt, hgl,
              if_pos heq]
          rw [hstep]
          refine ⟨hseqs, ?_, ?_⟩
          · have hsort2 : List.Pairwise (fun a b => a.address < b.address)
                (st.sequence_rows.dropLast ++ [last]) := by
              rw [← hdecomp]
              exact hsort
            rw [List.pairwise_append] at hsort2 ⊢
            obtain ⟨h1, _, h3⟩ := hsort2
            refine ⟨h1, by simp, ?_⟩
            intro a ha b hb
            simp only [List.mem_singleton] at hb
            subst hb
            exact h3 a ha last (by simp)
          · intro x hx
            simp only [List.getLast?_concat, Option.some.injEq] at hx
            subst hx
            exact Nat.le_of_eq heq
        · have hstep : lineStep st r =
              { sequences := st.sequences,
                sequence_rows := st.sequence_rows ++ [⟨r.address, r.file_index, r.line⟩],
                prev_address := r.address } := by
            simp only [lineStep, hend, Bool.false_eq_true, if_false, if_neg hlt, hgl,
              if_neg heq]
          rw [hstep]
          refine ⟨hseqs, ?_, ?_⟩
          · rw [List.pairwise_append]
            refine ⟨hsort, by simp, ?_⟩
            intro a ha b hb
            simp only [List.mem_singleton] at hb
            subst hb
            have hle := sorted_le_getLast st.sequence_rows hsort last hgl a ha
            have hlast_le := hlast last hgl
            show a.address < r.address
            omega
          · intro x hx
            simp only [List.getLast?_concat, Option.some.injEq] at hx
            subst hx
            exact Nat.le_refl _

/-- The parse loop maintains the invariant from the initial state. -/
theorem foldl_lineStep_inv (rows : List ProgramRow) :
    ∀ st, LPInv st → LPInv (rows.foldl lineStep st) := by
  induction rows with
  | nil => intro st h; exact h
  | cons r rest ih => intro st h; exact ih _ (lineStep_inv st r h)

/-- Every sequence `lineFinish` returns is well-formed. -/
theorem lineFinish_WF (st : LPState) (h : LPInv st) : ∀ s ∈ lineFinish st, SeqWF s := by
  obtain ⟨hseqs, hsort, _⟩ := h
  unfold lineFinish
  cases hrows : st.sequence_rows with
  | nil => exact hseqs
  | cons r0 rtail =>
    intro s hs
    rcases List.mem_append.mp hs with h1 | h2
    · exact hseqs s h1
    · simp only [List.mem_singleton] at h2
      subst h2
      exact ⟨by simp [hrows], by simpa [hrows] using hsort, by simp [hrows]⟩

/-- `DwarfLineProgram::parse` yields well-formed sequences sorted by
`low_address`. -/
theorem parse_WF (rows : List ProgramRow) :
    (∀ s ∈ DwarfLineProgram.parse rows, SeqWF s) ∧
    List.Pairwise (fun a b => a.low_address ≤ b.low_address)
      (DwarfLineProgram.parse rows) := by
  have hinv : LPInv (rows.foldl lineStep ⟨[], [], 0⟩) :=
    foldl_lineStep_inv rows _ ⟨by simp, by simp, by simp⟩
  constructor
  · intro s hs
    have hperm := List.perm_insertionSort (fun a b : DwarfSeq => a.low_address ≤ b.low_address)
      (lineFinish (rows.foldl lineStep ⟨[], [], 0⟩))
    have hmem : s ∈ lineFinish (rows.foldl lineStep ⟨[], [], 0⟩) := by
      rw [← hperm.mem_iff]
      simpa [DwarfLineProgram.parse, sortSeqs] using hs
    exact lineFinish_WF _ hinv s hmem
  · exact List.sorted_insertionSort _ _

/-! ## Claim C1 -/

/-- C1: for sequences built by `DwarfLineProgram::parse`, `get_rows` returns
rows all strictly below `range.end`; every returned row after the first is
at or above `range.begin`; and a nonempty result is one contiguous slice of
the rows of the first sequence whose `[low_address, high_address]` overlaps
`[range.begin, range.end]`, whose leading row is at or above `range.begin`
or else sits at the largest address strictly below `range.begin` in that
sequence — so the result only ever comes from that single sequence. -/
theorem c1_get_rows_first_overlapping_sequence (prows : List ProgramRow) (rng : Range) :
    (∀ row ∈ get_rows (DwarfLineProgram.parse prows) rng, row.address < rng.end_) ∧
    (∀ row ∈ (get_rows (DwarfLineProgram.parse prows) rng).tail,
      rng.begin_ ≤ row.address) ∧
    (get_rows (DwarfLineProgram.parse prows) rng ≠ [] →
      ∃ s, (DwarfLineProgram.parse prows).find? (overlaps rng) = some s ∧
        (∃ pre post, s.rows = pre ++ get_rows (DwarfLineProgram.parse prows) rng ++ post) ∧
        ∀ h, (get_rows (DwarfLineProgram.parse prows) rng).head? = some h →
          rng.begin_ ≤ h.address ∨
          (h.address < rng.begin_ ∧
            ∀ row ∈ s.rows, row.address < rng.begin_ → row.address ≤ h.address)) :=
  get_rows_spec (DwarfLineProgram.parse prows) rng (parse_WF prows).1 (parse_WF prows).2

/-- Witness for C1: on the two-row sequence of `c4rows` and the range
`[0x18, 0x40)`, the slice is the fallback row at 0x10 followed by the row at
0x20, and the bound from the claim evaluates at the second row. -/
theorem c1_get_rows_witness :
    get_rows (DwarfLineProgram.parse c4rows) ⟨0x18, 0x40⟩ =
      [⟨0x10, 3, some 42⟩, ⟨0x20, 1, some 7⟩] ∧
    (⟨0x20, 1, some 7⟩ : DwarfRow).address < 0x40 := by
  have h := c1_get_rows_first_overlapping_sequence c4rows ⟨0x18, 0x40⟩
  have heq : get_rows (DwarfLineProgram.parse c4rows) ⟨0x18, 0x40⟩ =
      [⟨0x10, 3, some 42⟩, ⟨0x20, 1, some 7⟩] := by decide
  refine ⟨heq, h.1 ⟨0x20, 1, some 7⟩ ?_⟩
  rw [heq]
  simp

/-! ## Lemmas for claim C8: the 16-bit line clamp survives the whole walker -/

/-- Generic invariant preservation along `foldlM` over `Except`. -/
theorem foldlM_except_inv {σ α : Type} (P : σ → Prop) (step : σ → α → Except String σ)
    (hstep : ∀ s a s2, P s → step s a = .ok s2 → P s2) :
    ∀ (l : List α) (s s2 : σ), P s → l.foldlM step s = .ok s2 → P s2 := by
  intro l
  induction l with
  | nil =>
    intro s s2 hs h
    simp only [List.foldlM_nil] at h
    have h2 : s = s2 := Except.ok.inj h
    rw [← h2]
    exact hs
  | cons a t ih =>
    intro s s2 hs h
    rw [List.foldlM_cons] at h
    cases hsa : step s a with
    | error e =>
      rw [hsa] at h
      exact Except.noConfusion h
    | ok s1 =>
      rw [hsa] at h
      exact ih s1 s2 (hstep s a s1 hs hsa) h

theorem make_line_bounded (vmaddr : Nat) (ft : Nat → Option (String × String))
    (row : DwarfRow) (l : Line) (h : make_line vmaddr ft row = .ok l) :
    l.line ≤ 0xffff := by
  unfold make_line get_filename at h
  cases hft : ft row.file_index with
  | none => rw [hft] at h; exact Except.noConfusion h
  | some p =>
    rw [hft] at h
    have h2 := Except.ok.inj h
    rw [← h2]
    exact Nat.min_le_right _ _

theorem setLines_append_bounded (f : Function) (l : Line)
    (hf : LinesBounded f) (hl : l.line ≤ 0xffff) :
    LinesBounded (f.setLines (f.lines ++ [l])) := by
  cases hf with
  | mk d a ln n inl ls c g h1 h2 =>
    refine LinesBounded.mk _ _ _ _ _ _ _ _ ?_ h2
    intro x hx
    rcases List.mem_append.mp hx with hx1 | hx2
    · exact h1 x hx1
    · simp only [List.mem_singleton] at hx2
      subst hx2
      exact hl

theorem append_line_bounded (f : Function) (l : Line)
    (hf : LinesBounded f) (hl : l.line ≤ 0xffff) :
    LinesBounded (f.append_line_if_changed l) := by
  unfold Function.append_line_if_changed
  split
  · split
    · exact hf
    · exact setLines_append_bounded f l hf hl
  · exact setLines_append_bounded f l hf hl

theorem make_function_bounded (vmaddr : Nat) (comp_dir : String) (lang : Nat)
    (depth : Int) (name : Option String) (r0 rlast : Range) :
    LinesBounded (make_function vmaddr comp_dir lang depth name r0 rlast) :=
  LinesBounded.mk _ _ _ _ _ _ _ _ (by simp) LinesBoundedL.nil

theorem add_lines_bounded (vmaddr : Nat) (ft : Nat → Option (String × String))
    (seqs : List DwarfSeq) (ranges : List Range) (f f2 : Function)
    (hf : LinesBounded f) (h : add_lines vmaddr ft seqs ranges f = .ok f2) :
    LinesBounded f2 := by
  unfold add_lines at h
  refine foldlM_except_inv LinesBounded _ ?_ ranges f f2 hf h
  intro s r s2 hs hstep
  refine foldlM_except_inv LinesBounded _ ?_ (get_rows seqs r) s s2 hs hstep
  intro s3 row s4 hs3 hstep2
  cases hml : make_line vmaddr ft row with
  | error e =>
    rw [hml] at hstep2
    exact Except.noConfusion hstep2
  | ok l =>
    rw [hml] at hstep2
    have h2 := Except.ok.inj hstep2
    rw [← h2]
    exact append_line_bounded s3 l hs3 (make_line_bounded vmaddr ft row l hml)

theorem patch_call_info_bounded (lines : List Line) (faddr cl cf : Nat)
    (bd fn : String) (hls : ∀ x ∈ lines, x.line ≤ 0xffff) :
    ∀ x ∈ patch_call_info lines faddr cl cf bd fn, x.line ≤ 0xffff := by
  unfold patch_call_info
  by_cases hany : lines.any (fun l => l.addr == faddr) = true
  · rw [if_pos hany]
    cases hidx : lines[lines.countP (fun l => decide (l.addr < faddr))]? with
    | none => exact hls
    | some old =>
      intro x hx
      rcases List.mem_or_eq_of_mem_set hx with h1 | h2
      · exact hls x h1
      · subst h2
        exact Nat.min_le_right _ _
  · rw [if_neg hany]
    intro x hx
    rcases List.mem_append.mp hx with h1 | h2
    · exact hls x (List.take_subset _ _ h1)
    · rcases List.mem_cons.mp h2 with h3 | h4
      · subst h3
        exact Nat.min_le_right _ _
      · exact hls x (List.drop_subset _ _ h4)

theorem push_bounded : ∀ (fs : FunctionList) (g : Function),
    LinesBoundedL fs → LinesBounded g → LinesBoundedL (fs.push g)
  | .nil, g, _, hg => by
    rw [FunctionList.push]
    exact LinesBoundedL.cons _ _ hg LinesBoundedL.nil
  | .cons f rest, g, hfs, hg => by
    rw [FunctionList.push]
    cases hfs with
    | cons _ _ h1 h2 => exact LinesBoundedL.cons _ _ h1 (push_bounded rest g h2 hg)

theorem attach_here_bounded (node func : Function)
    (patch : Option (Nat × Nat × String × String))
    (hn : LinesBounded node) (hf : LinesBounded func) :
    LinesBounded (attach_here node func patch) := by
  cases patch with
  | none =>
    cases hn with
    | mk d a l n inl ls c g h1 h2 =>
      exact LinesBounded.mk _ _ _ _ _ _ _ _ h1 (push_bounded inl func h2 hf)
  | some p =>
    obtain ⟨cl, cf, bd, fn⟩ := p
    cases hn with
    | mk d a l n inl ls c g h1 h2 =>
      exact LinesBounded.mk _ _ _ _ _ _ _ _
        (patch_call_info_bounded ls func.addr cl cf bd fn h1)
        (push_bounded inl func h2 hf)

mutual
theorem attach_inline_bounded (node : Function) (depth : Int) (func : Function)
    (patch : Option (Nat × Nat × String × String))
    (hn : LinesBounded node) (hf : LinesBounded func) :
    LinesBounded (attach_inline node depth func patch) := by
  cases node with
  | mk d a l n inl ls c g =>
    rw [attach_inline]
    cases hd : attach_descend inl depth func patch with
    | some inl2 =>
      cases hn with
      | mk _ _ _ _ _ _ _ _ h1 h2 =>
        exact LinesBounded.mk _ _ _ _ _ _ _ _ h1
          (attach_descend_bounded inl depth func patch h2 hf inl2 hd)
    | none =>
      exact attach_here_bounded _ _ _ hn hf

theorem attach_descend_bounded (fs : FunctionList) (depth : Int) (func : Function)
    (patch : Option (Nat × Nat × String × String))
    (hfs : LinesBoundedL fs) (hf : LinesBounded func) :
    ∀ fs2, attach_descend fs depth func patch = some fs2 → LinesBoundedL fs2 := by
  intro fs2 h
  cases fs with
  | nil =>
    rw [attach_descend] at h
    exact Option.noConfusion h
  | cons f rest =>
    cases rest with
    | nil =>
      rw [attach_descend] at h
      by_cases hdep : (f.depth : Int) < depth
      · rw [if_pos hdep] at h
        have h2 := Option.some.inj h
        rw [← h2]
        cases hfs with
        | cons _ _ h1 h3 =>
          exact LinesBoundedL.cons _ _
            (attach_inline_bounded f depth func patch h1 hf) h3
      · rw [if_neg hdep] at h
        exact Option.noConfusion h
    | cons g gs =>
      rw [attach_descend] at h
      cases hrec : attach_descend (.cons g gs) depth func patch with
      | some fsr =>
        rw [hrec] at h
        have h2 := Option.some.inj h
        rw [← h2]
        cases hfs with
        | cons _ _ h1 h3 =>
          exact LinesBoundedL.cons _ _ h1
            (attach_descend_bounded (.cons g gs) depth func patch h3 hf fsr hrec)
      | none =>
        rw [hrec] at h
        exact Option.noConfusion h
end

theorem walkVisit_bounded (ctx : WalkCtx) (seqs : List DwarfSeq) (st : WalkState)
    (e : DieEntry) (st2 : WalkState)
    (hst : ∀ f ∈ st.funcs, LinesBounded f)
    (h : walkVisit ctx seqs st e = .ok st2) :
    ∀ f ∈ st2.funcs, LinesBounded f := by
  unfold walkVisit at h
  by_cases htag : e.tag ≠ DwTag.subprogram ∧ e.tag ≠ DwTag.inlined_subroutine
  · rw [if_pos htag] at h
    have h2 := Except.ok.inj h
    rw [← h2]
    exact hst
  · rw [if_neg htag] at h
    cases hloc : parse_location e.attrs with
    | error msg =>
      simp only [hloc] at h
      exact Except.noConfusion h
    | ok loc =>
      simp only [hloc] at h
      cases hr : loc.ranges with
      | nil =>
        simp only [hr] at h
        have h2 := Except.ok.inj h
        rw [← h2]
        exact hst
      | cons r0 rrest =>
        simp only [hr] at h
        cases hadd : add_lines ctx.vmaddr ctx.file_table seqs (r0 :: rrest)
            (make_function ctx.vmaddr ctx.comp_dir ctx.lang st.depth
              (function_name ctx (e.tag == DwTag.inlined_subroutine) e r0
                (List.getLastD rrest r0)) r0 (List.getLastD rrest r0)) with
        | error msg =>
          simp only [hadd] at h
          exact Except.noConfusion h
        | ok func =>
          have hfunc : LinesBounded func :=
            add_lines_bounded _ _ _ _ _ _ (make_function_bounded _ _ _ _ _ _ _) hadd
          simp only [hadd] at h
          by_cases hinl : (e.tag == DwTag.inlined_subroutine) = false
          · rw [if_pos hinl] at h
            have h2 := Except.ok.inj h
            rw [← h2]
            intro f hf
            rcases List.mem_append.mp hf with h1 | h2
            · exact hst f h1
            · simp only [List.mem_singleton] at h2
              subst h2
              exact hfunc
          · rw [if_neg hinl] at h
            cases hgl : st.funcs.getLast? with
            | none =>
              simp only [hgl] at h
              exact Except.noConfusion h
            | some parent =>
              simp only [hgl] at h
              have hparent : LinesBounded parent := hst parent (mem_of_getLast?_eq hgl)
              have hdrop : ∀ f ∈ st.funcs.dropLast, LinesBounded f := fun f hf =>
                hst f ((List.dropLast_sublist st.funcs).subset hf)
              cases hcl : loc.call_line with
              | none =>
                simp only [hcl] at h
                have h2 := Except.ok.inj h
                rw [← h2]
                intro f hf
                rcases List.mem_append.mp hf with h1 | h2
                · exact hdrop f h1
                · simp only [List.mem_singleton] at h2
                  subst h2
                  exact attach_inline_bounded parent st.depth func none hparent hfunc
              | some cl =>
                simp only [hcl] at h
                cases hcf : loc.call_file with
                | none =>
                  simp only [hcf] at h
                  have h2 := Except.ok.inj h
                  rw [← h2]
                  intro f hf
                  rcases List.mem_append.mp hf with h1 | h2
                  · exact hdrop f h1
                  · simp only [List.mem_singleton] at h2
                    subst h2
                    exact attach_inline_bounded parent st.depth func none hparent hfunc
                | some cf =>
                  simp only [hcf] at h
                  cases hgf : get_filename ctx.file_table cf with
                  | error msg =>
                    simp only [hgf] at h
                    exact Except.noConfusion h
                  | ok p =>
                    obtain ⟨bd, fn⟩ := p
                    simp only [hgf] at h
                    have h2 := Except.ok.inj h
                    rw [← h2]
                    intro f hf
                    rcases List.mem_append.mp hf with h1 | h2
                    · exact hdrop f h1
                    · simp only [List.mem_singleton] at h2
                      subst h2
                      exact attach_inline_bounded parent st.depth func
                        (some (cl, cf, bd, fn)) hparent hfunc

theorem walkStep_bounded (ctx : WalkCtx) (seqs : List DwarfSeq) (st : WalkState)
    (e : DieEntry) (st2 : WalkState)
    (hst : ∀ f ∈ st.funcs, LinesBounded f)
    (h : walkStep ctx seqs st e = .ok st2) :
    ∀ f ∈ st2.funcs, LinesBounded f := by
  unfold walkStep at h
  cases hsk : st.skipped_depth with
  | some s =>
    simp only [hsk] at h
    by_cases hlt : s < st.depth + e.movement
    · rw [if_pos hlt] at h
      have h2 := Except.ok.inj h
      rw [← h2]
      exact hst
    · rw [if_neg hlt] at h
      exact walkVisit_bounded ctx seqs
        ⟨st.depth + e.movement, none, st.funcs⟩ e st2 hst h
  | none =>
    simp only [hsk] at h
    exact walkVisit_bounded ctx seqs
      ⟨st.depth + e.movement, none, st.funcs⟩ e st2 hst h

/-! ## Claim C8, amended theorem -/

/-- C8 as amended: every line in every function of the walker's output
(inline children included, call-site patches included) has `line ≤ 0xFFFF`
(the `cmp::min(_, 0xffff)` clamp); but `Function.len` is the truncation of
`ranges.last.end - ranges[0].begin` to 32 bits (`as u32`), not a
saturation. -/
theorem c8_line_clamp_len_truncation (ctx : WalkCtx) (prows : List ProgramRow)
    (entries : List DieEntry) (funcs0 : List Function) (out : List Function)
    (h0 : ∀ f ∈ funcs0, LinesBounded f)
    (hok : get_functions ctx prows entries funcs0 = .ok out) :
    (∀ f ∈ out, LinesBounded f) ∧
    (∀ vmaddr comp_dir lang depth name r0 rlast,
      (make_function vmaddr comp_dir lang depth name r0 rlast).len =
        wrapping_sub rlast.end_ r0.begin_ % U32MOD) := by
  constructor
  · simp only [get_functions] at hok
    cases hfold : List.foldlM (walkStep ctx (DwarfLineProgram.parse prows))
        ({ depth := 0, skipped_depth := none, funcs := funcs0 } : WalkState) entries with
    | error msg =>
      rw [hfold] at hok
      exact Except.noConfusion hok
    | ok stf =>
      rw [hfold] at hok
      have h2 := Except.ok.inj hok
      have hstf : ∀ f ∈ stf.funcs, LinesBounded f :=
        foldlM_except_inv (fun s => ∀ f ∈ s.funcs, LinesBounded f)
          (walkStep ctx (DwarfLineProgram.parse prows))
          (fun s a s2 hs hstep =>
            walkStep_bounded ctx (DwarfLineProgram.parse prows) s a s2 hs hstep)
          entries _ stf h0 hfold
      rw [← h2]
      intro f hf
      have hmem : f ∈ stf.funcs :=
        (List.perm_insertionSort (fun a b : Function => a.addr ≤ b.addr)
          stf.funcs).mem_iff.mp (by simpa [sortFuncs] using hf)
      exact hstf f hmem
  · intro vmaddr comp_dir lang depth name r0 rlast
    rfl

/-- Witness for C8 (amended): the concrete 2^32-byte function's output is
bounded, and its `len` is the 32-bit truncation (here 0). -/
theorem c8_clamp_witness :
    LinesBounded (Function.mk 1 4096 0 "big" .nil [] "" 0) ∧
    (make_function 0 "" 0 1 (some "big") ⟨0x1000, 0x1000 + 2 ^ 32⟩
      ⟨0x1000, 0x1000 + 2 ^ 32⟩).len =
      wrapping_sub (0x1000 + 2 ^ 32) 0x1000 % U32MOD := by
  have h := c8_line_clamp_len_truncation simpleCtx [] c8entries []
    [Function.mk 1 4096 0 "big" .nil [] "" 0] (by simp) rfl
  exact ⟨h.1 _ (by simp),
    h.2 0 "" 0 1 (some "big") ⟨0x1000, 0x1000 + 2 ^ 32⟩ ⟨0x1000, 0x1000 + 2 ^ 32⟩⟩

end SymbolicDwarf
